import Mathlib

/-!
Verification development for `update_prebuilts.py`, the maven-prebuilt update
script.  The Python source is shallowly embedded: pure string manipulation is
translated to functions on `String` / `List Char`, the `LooseVersion`
comparator of `distutils` is translated component-wise (its Python-3
comparison raises `TypeError` on mixed int/str components, which is modelled
by an `Option Ordering` result), file-system state is modelled as explicit
lists of file and directory paths (a path is a list of components), and
fallible steps return `Except`.  Global configuration tables that the script
reads (`maven_to_make`, `deps_rewrite`, `blacklist_files`) are modelled as
parameters or as the concrete lists from the source, as noted at each
definition.
-/

namespace UpdatePrebuilts

/-! ### Python string primitives

Python strings are sequences of code points; Lean's `String.data` gives the
same sequence, so slicing and comparison are modelled on `List Char`.
-/

/-- Python `s[:n]` (for `n ≥ 0`). -/
def pyTake (n : Nat) (s : String) : String := String.mk (s.data.take n)

/-- Python `s[n:]` (for `n ≥ 0`); yields `""` when `n ≥ len(s)`. -/
def pyDrop (n : Nat) (s : String) : String := String.mk (s.data.drop n)

/-- Python `s[:-n]` (for `n > 0`); yields `""` when `n ≥ len(s)`. -/
def pyDropLast (n : Nat) (s : String) : String :=
  String.mk (s.data.take (s.data.length - n))

/-- Python `s[-n:]` (for `n > 0`); yields all of `s` when `n ≥ len(s)`. -/
def pyLastN (n : Nat) (s : String) : String :=
  String.mk (s.data.drop (s.data.length - n))

/-- Python `s[a:-b]` (for `a ≥ 0`, `b > 0`); empty when the bounds cross. -/
def pySliceMid (a b : Nat) (s : String) : String :=
  String.mk ((s.data.take (s.data.length - b)).drop a)

/-- Helper for `splitChar`: `acc` holds the current field reversed. -/
def splitCharAux (sep : Char) : List Char → List Char → List String
  | [], acc => [String.mk acc.reverse]
  | c :: cs, acc =>
    if c = sep then String.mk acc.reverse :: splitCharAux sep cs []
    else splitCharAux sep cs (c :: acc)

/-- Python `s.split(sep)` for a single-character separator: fields between
separators are kept, including empty ones; `"".split(sep) == [""]`. -/
def splitChar (sep : Char) (s : String) : List String := splitCharAux sep s.data []

/-- Python `s.replace(old, new)` for single characters: a plain map. -/
def replaceChar (old new : Char) (s : String) : String :=
  String.mk (s.data.map (fun c => if c = old then new else c))

/-- Python `c in s` for a single character. -/
def containsChar (c : Char) (s : String) : Bool := s.data.any (fun d => d = c)

/-- Python string comparison: lexicographic on code points. -/
def cmpChars : List Char → List Char → Ordering
  | [], [] => .eq
  | [], _ :: _ => .lt
  | _ :: _, [] => .gt
  | a :: as, b :: bs =>
    if a.toNat < b.toNat then .lt
    else if b.toNat < a.toNat then .gt
    else cmpChars as bs

/-- Python `a < b / a == b / a > b` on strings, as an `Ordering`. -/
def pyStrCmp (a b : String) : Ordering := cmpChars a.data b.data

/-- Python `a <= b` on strings (the order used by `sorted`). -/
def pyStrLe (a b : String) : Prop := pyStrCmp a b ≠ .gt

instance instDecPyStrLe : DecidableRel pyStrLe := fun a b => by
  unfold pyStrLe; infer_instance

theorem cmpChars_eq_iff : ∀ a b : List Char, cmpChars a b = .eq ↔ a = b := by
  intro a
  induction a with
  | nil => intro b; cases b <;> simp [cmpChars]
  | cons x xs ih =>
    intro b
    cases b with
    | nil => simp [cmpChars]
    | cons y ys =>
      by_cases h1 : x.toNat < y.toNat
      · simp only [cmpChars, if_pos h1]
        constructor
        · intro h; cases h
        · intro h; cases h; omega
      · by_cases h2 : y.toNat < x.toNat
        · simp only [cmpChars, if_neg h1, if_pos h2]
          constructor
          · intro h; cases h
          · intro h; cases h; omega
        · have hv : x.toNat = y.toNat := by omega
          have hxy : x = y := Char.eq_of_val_eq (UInt32.ext hv)
          subst hxy
          simp only [cmpChars, if_neg h1, if_neg h2, ih ys]
          constructor
          · intro h; rw [h]
          · rintro ⟨rfl, rfl⟩; rfl

theorem cmpChars_swap : ∀ a b : List Char, cmpChars b a = (cmpChars a b).swap := by
  intro a
  induction a with
  | nil => intro b; cases b <;> simp [cmpChars, Ordering.swap]
  | cons x xs ih =>
    intro b
    cases b with
    | nil => simp [cmpChars, Ordering.swap]
    | cons y ys =>
      by_cases h1 : x.toNat < y.toNat
      · have h2 : ¬ y.toNat < x.toNat := by omega
        simp [cmpChars, h1, h2, Ordering.swap]
      · by_cases h2 : y.toNat < x.toNat
        · simp [cmpChars, h1, h2, Ordering.swap]
        · simp [cmpChars, h1, h2, ih ys]

theorem cmpChars_le_trans :
    ∀ a b c : List Char, cmpChars a b ≠ .gt → cmpChars b c ≠ .gt → cmpChars a c ≠ .gt := by
  intro a
  induction a with
  | nil =>
    intro b c _ _
    cases c <;> simp [cmpChars]
  | cons x xs ih =>
    intro b c hab hbc
    cases b with
    | nil => simp [cmpChars] at hab
    | cons y ys =>
      cases c with
      | nil => simp [cmpChars] at hbc
      | cons z zs =>
        by_cases hxy1 : x.toNat < y.toNat
        · by_cases hyz1 : y.toNat < z.toNat
          · have : x.toNat < z.toNat := by omega
            simp [cmpChars, this]
          · by_cases hyz2 : z.toNat < y.toNat
            · simp [cmpChars, hyz1, hyz2] at hbc
            · have : x.toNat < z.toNat := by omega
              simp [cmpChars, this]
        · by_cases hxy2 : y.toNat < x.toNat
          · simp [cmpChars, hxy1, hxy2] at hab
          · by_cases hyz1 : y.toNat < z.toNat
            · have h1 : x.toNat < z.toNat := by omega
              simp [cmpChars, h1]
            · by_cases hyz2 : z.toNat < y.toNat
              · simp [cmpChars, hyz1, hyz2] at hbc
              · have h1 : ¬ x.toNat < z.toNat := by omega
                have h2 : ¬ z.toNat < x.toNat := by omega
                simp only [cmpChars, if_neg h1, if_neg h2]
                simp only [cmpChars, if_neg hxy1, if_neg hxy2] at hab
                simp only [cmpChars, if_neg hyz1, if_neg hyz2] at hbc
                exact ih ys zs hab hbc

instance : IsTotal String pyStrLe := by
  constructor
  intro a b
  unfold pyStrLe pyStrCmp
  rcases h : cmpChars a.data b.data with _ | _ | _
  · left; simp [h]
  · left; simp [h]
  · right; rw [cmpChars_swap, h]; simp [Ordering.swap]

instance : IsTrans String pyStrLe :=
  ⟨fun a b c hab hbc => cmpChars_le_trans a.data b.data c.data hab hbc⟩

instance : IsAntisymm String pyStrLe := by
  constructor
  intro a b hab hba
  unfold pyStrLe pyStrCmp at hab hba
  rw [cmpChars_swap] at hba
  have : cmpChars a.data b.data = .eq := by
    rcases h : cmpChars a.data b.data with _ | _ | _
    · rw [h] at hba; simp [Ordering.swap] at hba
    · rfl
    · exact absurd h hab
  exact String.ext ((cmpChars_eq_iff _ _).mp this)

/-! ### distutils `LooseVersion`

`LooseVersion.parse` splits the version string with
`re.compile(r'(\d+ | [a-z]+ | \.)', re.VERBOSE).split`, drops empty pieces
and `"."` pieces, and converts all-digit pieces to `int`.  Comparison is
Python list comparison of the resulting mixed int/str lists; comparing an
int component with a str component raises `TypeError`, modelled as `none`.
(Only ASCII digits are modelled for `\d` and `int`.)
-/

/-- One parsed component of a `LooseVersion`. -/
inductive VComp where
  | num : Nat → VComp
  | txt : String → VComp
deriving DecidableEq, Repr

/-- Python `int` of a run of ASCII digits (`int("007") = 7`). -/
def digitsToNat (cs : List Char) : Nat :=
  cs.foldl (fun n c => n * 10 + (c.toNat - 48)) 0

/-- Character classes of the `LooseVersion` tokenizer: the regex matches
maximal digit runs, maximal `[a-z]` runs and single dots; everything else
is unmatched separator text (kept as a piece). -/
inductive LClass where
  | digit | lower | dot | other
deriving DecidableEq, Repr

def lclassOf (c : Char) : LClass :=
  if c.isDigit then .digit
  else if 'a' ≤ c ∧ c ≤ 'z' then .lower
  else if c = '.' then .dot
  else .other

/-- Emit the pieces for one finished run: digit runs become ints, dots are
dropped, letter runs and separator text stay strings. -/
def flushTok : LClass → List Char → List VComp
  | .digit, run => [.num (digitsToNat run)]
  | .lower, run => [.txt (String.mk run)]
  | .dot, _ => []
  | .other, run => [.txt (String.mk run)]

/-- Left-to-right scan grouping maximal same-class runs. -/
def looseScan : Option (LClass × List Char) → List Char → List VComp
  | none, [] => []
  | some (cl, run), [] => flushTok cl run
  | none, c :: cs => looseScan (some (lclassOf c, [c])) cs
  | some (cl, run), c :: cs =>
    if lclassOf c = cl then looseScan (some (cl, run ++ [c])) cs
    else flushTok cl run ++ looseScan (some (lclassOf c, [c])) cs

/-- `distutils.version.LooseVersion(s).version`. -/
def LooseVersion (s : String) : List VComp := looseScan none s.data

/-- Python 3 list comparison of `LooseVersion` component lists.  `none`
models the `TypeError` raised when an int meets a str component. -/
def pyCompare : List VComp → List VComp → Option Ordering
  | [], [] => some .eq
  | [], _ :: _ => some .lt
  | _ :: _, [] => some .gt
  | x :: xs, y :: ys =>
    match x, y with
    | .num m, .num n =>
      if m = n then pyCompare xs ys else if m < n then some .lt else some .gt
    | .txt s, .txt t =>
      if s = t then pyCompare xs ys
      else if pyStrCmp s t = .lt then some .lt else some .gt
    | .num _, .txt _ => none
    | .txt _, .num _ => none

theorem pyCompare_refl : ∀ v : List VComp, pyCompare v v = some .eq := by
  intro v
  induction v with
  | nil => rfl
  | cons x xs ih => cases x <;> simp [pyCompare, ih]

theorem pyCompare_swap :
    ∀ a b : List VComp, pyCompare b a = (pyCompare a b).map Ordering.swap := by
  intro a
  induction a with
  | nil => intro b; cases b <;> simp [pyCompare, Ordering.swap]
  | cons x xs ih =>
    intro b
    cases b with
    | nil => cases x <;> simp [pyCompare, Ordering.swap]
    | cons y ys =>
      cases x with
      | num m =>
        cases y with
        | num n =>
          by_cases h : m = n
          · subst h; simp [pyCompare, ih ys]
          · have h' : n ≠ m := fun hh => h hh.symm
            by_cases hlt : m < n
            · have : ¬ n < m := by omega
              simp [pyCompare, h, h', hlt, this, Ordering.swap]
            · have : n < m := by omega
              simp [pyCompare, h, h', hlt, this, Ordering.swap]
        | txt t => simp [pyCompare]
      | txt s =>
        cases y with
        | num n => simp [pyCompare]
        | txt t =>
          by_cases h : s = t
          · subst h; simp [pyCompare, ih ys]
          · have h' : t ≠ s := fun hh => h hh.symm
            by_cases hlt : pyStrCmp s t = .lt
            · have hgt : pyStrCmp t s ≠ .lt := by
                unfold pyStrCmp at hlt ⊢
                rw [cmpChars_swap, hlt]
                simp [Ordering.swap]
              simp [pyCompare, h, h', hlt, hgt, Ordering.swap]
            · have heq : pyStrCmp s t ≠ .eq := by
                unfold pyStrCmp
                intro hh
                exact h (String.ext ((cmpChars_eq_iff _ _).mp hh))
              have hgt : pyStrCmp s t = .gt := by
                rcases hh : pyStrCmp s t with _ | _ | _
                · exact absurd hh hlt
                · exact absurd hh heq
                · rfl
              have hts : pyStrCmp t s = .lt := by
                unfold pyStrCmp at hgt ⊢
                rw [cmpChars_swap, hgt]
                rfl
              simp [pyCompare, h, h', hlt, hts, Ordering.swap]

example : LooseVersion "1.2.0-beta01" =
    [.num 1, .num 2, .num 0, .txt "-", .txt "beta", .num 1] := by decide

example : LooseVersion "1.0.0" = [.num 1, .num 0, .num 0] := by decide

example : pyCompare (LooseVersion "1.2.1") (LooseVersion "1.2.0") = some .gt := by
  decide

example : pyCompare (LooseVersion "1.2.0") (LooseVersion "1.2.0-beta01") = some .lt := by
  decide

/-! ### Configuration tables and coordinate-to-name/path derivation

`maven_to_make` maps an unversioned coordinate to per-artifact build
configuration.  In the source it is a dict whose values may carry `name`,
`path`, `extra-static-libs`, `optional-uses-libs`, `host` and
`host_and_device`; a module-level loop fills in missing `name`/`path`.
Entries before that loop are modelled by `MakeEntry0` (optional
`name`/`path`), entries after it by `MakeEntry`.  Dicts preserve insertion
order, so tables are association lists.
-/

/-- A `maven_to_make` value before the auto-population loop. -/
structure MakeEntry0 where
  name : Option String := none
  path : Option String := none
  extra_static_libs : Option (List String) := none
  optional_uses_libs : Option (List String) := none
  host : Bool := false
  host_and_device : Bool := false
deriving DecidableEq, Repr

/-- A `maven_to_make` value after the auto-population loop. -/
structure MakeEntry where
  name : String
  path : String
  extra_static_libs : Option (List String) := none
  optional_uses_libs : Option (List String) := none
  host : Bool := false
  host_and_device : Bool := false
deriving DecidableEq, Repr

abbrev Table := List (String × MakeEntry)

/-- `name_for_artifact`: `group_artifact.replace(':','_')`. -/
def name_for_artifact (group_artifact : String) : String :=
  replaceChar ':' '_' group_artifact

/-- `path_for_artifact`: `group_artifact.replace('.','/').replace(':','/')`. -/
def path_for_artifact (group_artifact : String) : String :=
  replaceChar ':' '/' (replaceChar '.' '/' group_artifact)

/-- Body of the module-level loop that adds automatic `name`/`path` entries
to one `maven_to_make` value. -/
def populateEntry (key : String) (e : MakeEntry0) : MakeEntry :=
  { name := e.name.getD (name_for_artifact key)
    path := e.path.getD (path_for_artifact key)
    extra_static_libs := e.extra_static_libs
    optional_uses_libs := e.optional_uses_libs
    host := e.host
    host_and_device := e.host_and_device }

/-- The module-level auto-population loop over the whole table. -/
def populateTable (t : List (String × MakeEntry0)) : Table :=
  t.map (fun p => (p.1, populateEntry p.1 p.2))

/-- `maven_to_make` as written in the source: the shipped table is empty
(the script is a template to be filled in). -/
def maven_to_make : List (String × MakeEntry0) := []

/-- `deps_rewrite`, in the source's insertion order. -/
def deps_rewrite : List (String × String) :=
  [ ("auto-common", "auto_common"),
    ("auto-value-annotations", "auto_value_annotations"),
    ("com.google.auto.value:auto-value", "libauto_value_plugin"),
    ("monitor", "androidx.test.monitor"),
    ("rules", "androidx.test.rules"),
    ("runner", "androidx.test.runner"),
    ("androidx.test:core", "androidx.test.core"),
    ("com.squareup:javapoet", "javapoet"),
    ("com.google.guava:listenablefuture", "guava-listenablefuture-prebuilt-jar"),
    ("sqlite-jdbc", "xerial-sqlite-jdbc"),
    ("gson", "gson-prebuilt-jar"),
    ("com.intellij:annotations", "jetbrains-annotations"),
    ("javax.annotation:javax.annotation-api", "javax-annotation-api-prebuilt-host-jar"),
    ("org.robolectric:robolectric", "Robolectric_all-target"),
    ("org.jetbrains.kotlin:kotlin-stdlib-common", "kotlin-stdlib"),
    ("org.jetbrains.kotlinx:kotlinx-coroutines-core", "kotlinx_coroutines"),
    ("org.jetbrains.kotlinx:kotlinx-coroutines-android", "kotlinx_coroutines_android"),
    ("org.jetbrains.kotlinx:kotlinx-metadata-jvm", "kotlinx_metadata_jvm") ]

/-- `blacklist_files`: paths always removed from extracted archives
(`os.path.join('libs', ...)` gives the one nested entry). -/
def blacklist_files : List (List String) :=
  [ ["annotations.zip"], ["public.txt"], ["R.txt"], ["AndroidManifest.xml"],
    ["libs", "noto-emoji-compat-java.jar"] ]

/-! ### The `pom2bp` argument list (manifest-generator invocation)

Built in `transform_maven_repos`, lines 285-296 of the source.
-/

/-- Table lookup (`maven_to_make[key]`) as an option. -/
def tableEntry (t : Table) (k : String) : Option MakeEntry :=
  (t.find? (fun p => p.1 == k)).map Prod.snd

/-- `maven_to_make[name]['name']` for a key of the table (defaults to `""`
for absent keys; the source only evaluates it on keys of the table). -/
def entryName (t : Table) (k : String) : String :=
  ((tableEntry t k).map MakeEntry.name).getD ""

/-- `rewriteNames`: `sorted([n for n in maven_to_make if ":" in n] + [n for
n in maven_to_make if ":" not in n])`.  Note that `sorted` is applied to the
concatenation of the two comprehensions. -/
def rewriteNames (t : Table) : List String :=
  List.insertionSort pyStrLe
    ((t.map Prod.fst).filter (fun n => containsChar ':' n) ++
     (t.map Prod.fst).filter (fun n => !containsChar ':' n))

/-- The fixed leading arguments of the `pom2bp` invocation. -/
def pom2bpStaticArgs : List String :=
  ["pom2bp", "-sdk-version", "31", "-default-min-sdk-version", "24", "-static-deps"]

/-- `-rewrite` rules derived from the mapping table. -/
def mapRewriteArgs (t : Table) : List String :=
  (rewriteNames t).map (fun n => "-rewrite=^" ++ n ++ "$=" ++ entryName t n)

/-- `-rewrite` rules derived from `deps_rewrite.items()` (dict iteration
order, i.e. insertion order). -/
def overrideRewriteArgs (d : List (String × String)) : List String :=
  d.map (fun kv => "-rewrite=^" ++ kv.1 ++ "$=" ++ kv.2)

/-- `-extra-static-libs` arguments (table order, libs sorted). -/
def extraStaticLibsArgs (t : Table) : List String :=
  t.filterMap (fun p => p.2.extra_static_libs.map (fun libs =>
    "-extra-static-libs=" ++ p.2.name ++ "=" ++
      String.intercalate "," (List.insertionSort pyStrLe libs)))

/-- `-optional-uses-libs` arguments (table order, libs sorted). -/
def optionalUsesLibsArgs (t : Table) : List String :=
  t.filterMap (fun p => p.2.optional_uses_libs.map (fun libs =>
    "-optional-uses-libs=" ++ p.2.name ++ "=" ++
      String.intercalate "," (List.insertionSort pyStrLe libs)))

/-- `-host` arguments. -/
def hostArgs (t : Table) : List String :=
  (t.filter (fun p => p.2.host)).map (fun p => "-host=" ++ p.1)

/-- `-host-and-device` arguments. -/
def hostAndDeviceArgs (t : Table) : List String :=
  (t.filter (fun p => p.2.host_and_device)).map (fun p => "-host-and-device=" ++ p.1)

/-- The full `pom2bp` argument list built in `transform_maven_repos`. -/
def pom2bpArgs (t : Table) (d : List (String × String)) : List String :=
  pom2bpStaticArgs ++ mapRewriteArgs t ++ overrideRewriteArgs d ++
    extraStaticLibsArgs t ++ optionalUsesLibsArgs t ++ hostArgs t ++
    hostAndDeviceArgs t ++ ["."]

/-! ### `GMavenArtifact`: the coordinate model -/

def GMAVEN_BASE_URL : String := "https://dl.google.com/dl/android/maven2"

structure GMavenArtifact where
  group : String
  group_path : String
  library : String
  key : String
  version : String
  ext : String
deriving DecidableEq, Repr

/-- `GMavenArtifact.__init__`: unpacking `artifact_glob.split(':')` into four
variables raises `ValueError` unless there are exactly four fields, and an
explicit check rejects empty fields. -/
def GMavenArtifact.init (artifact_glob : String) : Except String GMavenArtifact :=
  match splitChar ':' artifact_glob with
  | [group, library, version, ext] =>
    if group = "" ∨ library = "" ∨ version = "" ∨ ext = "" then
      .error ("Error in " ++ artifact_glob ++ " expected: group:library:version:ext")
    else
      .ok { group := group, group_path := replaceChar '.' '/' group,
            library := library, key := group ++ ":" ++ library,
            version := version, ext := ext }
  | _ => .error ("Error in " ++ artifact_glob ++ " expected: group:library:version:ext")

def GMavenArtifact.get_pom_file_url (a : GMavenArtifact) : String :=
  GMAVEN_BASE_URL ++ "/" ++ a.group_path ++ "/" ++ a.library ++ "/" ++
    a.version ++ "/" ++ (a.library ++ "-" ++ a.version ++ ".pom")

def GMavenArtifact.get_artifact_url (a : GMavenArtifact) : String :=
  GMAVEN_BASE_URL ++ "/" ++ a.group_path ++ "/" ++ a.library ++ "/" ++
    a.version ++ "/" ++ (a.library ++ "-" ++ a.version ++ "." ++ a.ext)

/-! ### Artifact discovery (`detect_artifacts`)

The walk input is modelled as, per repository root, the list of files the
`os.walk` yields: each with its containing directory (`root`), its name,
its text lines (as Python file iteration yields them, trailing newline
included), and whether the sibling `.jar` / `.aar` files exist on disk.
-/

structure MavenLibraryInfo where
  key : String
  group_id : String
  artifact_id : String
  version : List VComp
  dir : String
  repo_dir : String
  file : String
deriving DecidableEq, Repr

/-- One file encountered during the walk of a repository tree. -/
structure PomRecord where
  root : String
  filename : String
  lines : List String
  jarExists : Bool
  aarExists : Bool
deriving DecidableEq, Repr

/-- One repository root together with the walked files under it. -/
structure RepoData where
  repoDir : String
  records : List PomRecord
deriving DecidableEq, Repr

/-- The POM-scraping loop (lines 211-217): fixed line-column markers, each
matching line overwrites the previous value of its field. -/
def parsePomFields (lines : List String) : String × String × String :=
  lines.foldl (fun acc line =>
    if pyTake 11 line = "  <groupId>" then (pySliceMid 11 11 line, acc.2.1, acc.2.2)
    else if pyTake 14 line = "  <artifactId>" then (acc.1, pySliceMid 14 14 line, acc.2.2)
    else if pyTake 11 line = "  <version>" then (acc.1, acc.2.1, pySliceMid 11 11 line)
    else acc) ("", "", "")

/-- Lines 223-232: locate the sibling binary payload next to the POM;
`artifact_file` is the POM path without its `.pom` ending.  The `.jar`
sibling is tried first, the `.aar` sibling second, and the file is skipped
silently when neither exists. -/
def locate_artifact (r : PomRecord) (artifact_file : String) : Option String :=
  if r.jarExists then some (artifact_file ++ ".jar")
  else if r.aarExists then some (artifact_file ++ ".aar")
  else none

/-- `key in maven_to_make`. -/
def hasTableKey (t : Table) (k : String) : Bool :=
  (t.find? (fun p => p.1 == k)).isSome

/-- Outcome of processing one walked file, before the store-latest step. -/
inductive RecordOutcome where
  | notPom
  | missingMeta (msg : String)
  | noArtifact
  | unmapped
  | candidate (key : String) (info : MavenLibraryInfo)
deriving DecidableEq, Repr

/-- Lines 204-245 of `detect_artifacts`: filter for `.pom` names, scrape the
three fields, locate the sibling payload, make it relative to `root`, and
resolve the mapping key (full `group:artifact` first, bare artifact id
second). -/
def classifyRecord (t : Table) (repo_dir : String) (r : PomRecord) : RecordOutcome :=
  if pyLastN 4 r.filename = ".pom" then
    let file := r.root ++ "/" ++ r.filename
    let fields := parsePomFields r.lines
    let group_id := fields.1
    let artifact_id := fields.2.1
    let version := fields.2.2
    if group_id = "" ∨ artifact_id = "" ∨ version = "" then
      .missingMeta ("Failed to find Maven artifact data in " ++ file)
    else
      match locate_artifact r (pyDropLast 4 file) with
      | none => .noArtifact
      | some artifact_file =>
        let relFile := pyDrop (r.root.length + 1) artifact_file
        let group_artifact := group_id ++ ":" ++ artifact_id
        if hasTableKey t group_artifact then
          .candidate group_artifact
            ⟨group_artifact, group_id, artifact_id, LooseVersion version,
              r.root, repo_dir, relFile⟩
        else if hasTableKey t artifact_id then
          .candidate artifact_id
            ⟨artifact_id, group_id, artifact_id, LooseVersion version,
              r.root, repo_dir, relFile⟩
        else .unmapped
  else .notPom

/-- State of `detect_artifacts`: the growing `maven_lib_info` dict plus the
diagnostics printed so far. -/
structure DState where
  info : List (String × MavenLibraryInfo)
  diags : List String
deriving DecidableEq, Repr

/-- `maven_lib_info[key]` lookup. -/
def lookupInfo : List (String × MavenLibraryInfo) → String → Option MavenLibraryInfo
  | [], _ => none
  | p :: ps, k => if p.1 == k then some p.2 else lookupInfo ps k

/-- Dict assignment to an existing key (keeps the entry's position). -/
def updateInfo (l : List (String × MavenLibraryInfo)) (k : String)
    (i : MavenLibraryInfo) : List (String × MavenLibraryInfo) :=
  l.map (fun p => if p.1 == k then (k, i) else p)

/-- Lines 204-252: processing of one walked file, including the
store-latest step `if key not in maven_lib_info or version >
maven_lib_info[key].version`.  A `none` from `pyCompare` models the
`TypeError` that the Python-3 `LooseVersion` comparison can raise. -/
def detectStep (t : Table) (repo_dir : String) (st : DState) (r : PomRecord) :
    Except Unit DState :=
  match classifyRecord t repo_dir r with
  | .notPom => .ok st
  | .missingMeta msg => .ok { st with diags := st.diags ++ [msg] }
  | .noArtifact => .ok st
  | .unmapped => .ok st
  | .candidate key i =>
    match lookupInfo st.info key with
    | none => .ok { st with info := st.info ++ [(key, i)] }
    | some j =>
      match pyCompare i.version j.version with
      | none => .error ()
      | some .gt => .ok { st with info := updateInfo st.info key i }
      | some _ => .ok st

/-- `detect_artifacts`: fold the per-file step over every file of every
repository root, starting from an empty dict. -/
def detect_artifacts (t : Table) (maven_repo_dirs : List RepoData) :
    Except Unit DState :=
  maven_repo_dirs.foldlM
    (fun st rd => rd.records.foldlM (detectStep t rd.repoDir) st) ⟨[], []⟩

/-- All walked files with their repository root, in traversal order. -/
def walkedRecords (maven_repo_dirs : List RepoData) : List (String × PomRecord) :=
  maven_repo_dirs.flatMap (fun rd => rd.records.map (fun r => (rd.repoDir, r)))

/-- The per-file step over a (repoDir, record) pair. -/
abbrev stepRR (t : Table) (st : DState) (rr : String × PomRecord) : Except Unit DState :=
  detectStep t rr.1 st rr.2

/-- The candidates of a record list: every walked file that reaches the
store-latest step, with its resolved key. -/
def candsOf (t : Table) (rs : List (String × PomRecord)) :
    List (String × MavenLibraryInfo) :=
  rs.filterMap (fun rr =>
    match classifyRecord t rr.1 rr.2 with
    | .candidate k i => some (k, i)
    | _ => none)

/-- The candidates of a full discovery input. -/
def detectCandidates (t : Table) (repos : List RepoData) :
    List (String × MavenLibraryInfo) :=
  candsOf t (walkedRecords repos)

theorem foldlM_map_pair (t : Table) (rd : String) :
    ∀ (rs : List PomRecord) (st : DState),
      (rs.map (fun r => (rd, r))).foldlM (stepRR t) st =
        rs.foldlM (detectStep t rd) st := by
  intro rs
  induction rs with
  | nil => intro st; rfl
  | cons r rest ih =>
    intro st
    simp only [List.map_cons, List.foldlM_cons, stepRR]
    cases h : detectStep t rd st r with
    | error e => rfl
    | ok st1 => exact ih st1

/-- Discovery as a single fold over the flattened record list. -/
theorem detect_eq_fold (t : Table) (repos : List RepoData) :
    detect_artifacts t repos =
      (walkedRecords repos).foldlM (stepRR t) ⟨[], []⟩ := by
  suffices h : ∀ (rds : List RepoData) (st : DState),
      rds.foldlM (fun st rd => rd.records.foldlM (detectStep t rd.repoDir) st) st =
        (walkedRecords rds).foldlM (stepRR t) st from h repos ⟨[], []⟩
  intro rds
  induction rds with
  | nil => intro st; rfl
  | cons rd rest ih =>
    intro st
    simp only [List.foldlM_cons, walkedRecords, List.flatMap_cons, List.foldlM_append]
    rw [foldlM_map_pair]
    cases h : rd.records.foldlM (detectStep t rd.repoDir) st with
    | error e => rfl
    | ok st1 => simpa [walkedRecords] using ih st1

theorem lookupInfo_append_self (l : List (String × MavenLibraryInfo)) (k : String)
    (i : MavenLibraryInfo) (h : lookupInfo l k = none) :
    lookupInfo (l ++ [(k, i)]) k = some i := by
  induction l with
  | nil => simp [lookupInfo]
  | cons p ps ih =>
    by_cases hp : p.1 == k
    · simp [lookupInfo, hp] at h
    · simp only [List.cons_append, lookupInfo, if_neg hp] at h ⊢
      exact ih h

theorem lookupInfo_append_ne (l : List (String × MavenLibraryInfo)) (k k' : String)
    (i : MavenLibraryInfo) (h : k' ≠ k) :
    lookupInfo (l ++ [(k, i)]) k' = lookupInfo l k' := by
  induction l with
  | nil =>
    have hne : ¬ ((k, i).1 == k') = true := by
      simp only [beq_iff_eq]
      exact fun he => h he.symm
    simp only [List.nil_append, lookupInfo, if_neg hne]
  | cons p ps ih =>
    by_cases hp : p.1 == k'
    · simp [lookupInfo, hp]
    · simp only [List.cons_append, lookupInfo, if_neg hp]
      exact ih

theorem lookupInfo_update_self (l : List (String × MavenLibraryInfo)) (k : String)
    (i j : MavenLibraryInfo) (h : lookupInfo l k = some j) :
    lookupInfo (updateInfo l k i) k = some i := by
  induction l with
  | nil => simp [lookupInfo] at h
  | cons p ps ih =>
    by_cases hp : p.1 == k
    · simp [updateInfo, lookupInfo, hp]
    · simp only [lookupInfo, if_neg hp] at h
      simp only [updateInfo, List.map_cons, if_neg hp]
      simp only [lookupInfo, if_neg hp]
      exact ih h

theorem lookupInfo_update_ne (l : List (String × MavenLibraryInfo)) (k k' : String)
    (i : MavenLibraryInfo) (h : k' ≠ k) :
    lookupInfo (updateInfo l k i) k' = lookupInfo l k' := by
  induction l with
  | nil => rfl
  | cons p ps ih =>
    by_cases hp : p.1 == k
    · have hpk : p.1 = k := by simpa using hp
      have h1 : ¬ ((k, i).1 == k') = true := by simpa using fun he => h he.symm
      have h2 : ¬ (p.1 == k') = true := by
        simp only [hpk]; simpa using fun he => h he.symm
      simp only [updateInfo, List.map_cons, if_pos hp]
      simp only [lookupInfo, if_neg h1, if_neg h2]
      exact ih
    · simp only [updateInfo, List.map_cons, if_neg hp]
      by_cases hp' : p.1 == k'
      · simp [lookupInfo, hp']
      · simp only [lookupInfo, if_neg hp']
        exact ih

/-- A step whose record does not resolve to key `k` leaves the entry at `k`
untouched. -/
theorem detectStep_lookup_other (t : Table) (rd : String) (st st1 : DState)
    (r : PomRecord) (k : String) (h : detectStep t rd st r = .ok st1)
    (hnc : ∀ j, classifyRecord t rd r ≠ .candidate k j) :
    lookupInfo st1.info k = lookupInfo st.info k := by
  cases hcc : classifyRecord t rd r with
  | notPom => simp only [detectStep, hcc, Except.ok.injEq] at h; rw [← h]
  | missingMeta msg => simp only [detectStep, hcc, Except.ok.injEq] at h; rw [← h]
  | noArtifact => simp only [detectStep, hcc, Except.ok.injEq] at h; rw [← h]
  | unmapped => simp only [detectStep, hcc, Except.ok.injEq] at h; rw [← h]
  | candidate key j =>
    have hkey : key ≠ k := by
      intro he; exact hnc j (by rw [hcc, he])
    cases hlook : lookupInfo st.info key with
    | none =>
      simp only [detectStep, hcc, hlook, Except.ok.injEq] at h
      rw [← h]
      exact lookupInfo_append_ne _ _ _ _ (fun he => hkey he.symm)
    | some j0 =>
      cases hcmp : pyCompare j.version j0.version with
      | none => simp only [detectStep, hcc, hlook, hcmp] at h; cases h
      | some o =>
        cases o with
        | lt => simp only [detectStep, hcc, hlook, hcmp, Except.ok.injEq] at h; rw [← h]
        | eq => simp only [detectStep, hcc, hlook, hcmp, Except.ok.injEq] at h; rw [← h]
        | gt =>
          simp only [detectStep, hcc, hlook, hcmp, Except.ok.injEq] at h
          rw [← h]
          exact lookupInfo_update_ne _ _ _ _ (fun he => hkey he.symm)

/-- A step never displaces a stored entry that is at least as new as every
candidate the record can produce for its key. -/
theorem detectStep_lookup_keep (t : Table) (rd : String) (st st1 : DState)
    (r : PomRecord) (k : String) (i : MavenLibraryInfo)
    (h : detectStep t rd st r = .ok st1) (hst : lookupInfo st.info k = some i)
    (hc : ∀ j, classifyRecord t rd r = .candidate k j →
      j = i ∨ pyCompare j.version i.version = some .lt) :
    lookupInfo st1.info k = some i := by
  cases hcc : classifyRecord t rd r with
  | candidate key j =>
    by_cases hkey : key = k
    · subst hkey
      rcases hc j hcc with hji | hlt
      · subst hji
        simp only [detectStep, hcc, hst, pyCompare_refl, Except.ok.injEq] at h
        rw [← h]
        exact hst
      · simp only [detectStep, hcc, hst, hlt, Except.ok.injEq] at h
        rw [← h]
        exact hst
    · rw [detectStep_lookup_other t rd st st1 r k h
        (fun j' hj' => by rw [hcc] at hj'; cases hj'; exact hkey rfl)]
      exact hst
  | notPom =>
    rw [detectStep_lookup_other t rd st st1 r k h (fun j' hj' => by rw [hcc] at hj'; cases hj')]
    exact hst
  | missingMeta msg =>
    rw [detectStep_lookup_other t rd st st1 r k h (fun j' hj' => by rw [hcc] at hj'; cases hj')]
    exact hst
  | noArtifact =>
    rw [detectStep_lookup_other t rd st st1 r k h (fun j' hj' => by rw [hcc] at hj'; cases hj')]
    exact hst
  | unmapped =>
    rw [detectStep_lookup_other t rd st st1 r k h (fun j' hj' => by rw [hcc] at hj'; cases hj')]
    exact hst

/-- When the record's candidate for `k` is strictly newer than the stored
entry (or no entry is stored), the step stores the candidate. -/
theorem detectStep_stores (t : Table) (rd : String) (st st1 : DState)
    (r : PomRecord) (k : String) (i : MavenLibraryInfo)
    (h : detectStep t rd st r = .ok st1)
    (hcc : classifyRecord t rd r = .candidate k i)
    (hinv : lookupInfo st.info k = none ∨
      ∃ j0, lookupInfo st.info k = some j0 ∧ pyCompare j0.version i.version = some .lt) :
    lookupInfo st1.info k = some i := by
  rcases hinv with hnone | ⟨j0, hsome, hlt⟩
  · simp only [detectStep, hcc, hnone, Except.ok.injEq] at h
    rw [← h]
    exact lookupInfo_append_self _ _ _ hnone
  · have hgt : pyCompare i.version j0.version = some .gt := by
      rw [pyCompare_swap, hlt]; rfl
    simp only [detectStep, hcc, hsome, hgt, Except.ok.injEq] at h
    rw [← h]
    exact lookupInfo_update_self _ _ _ _ hsome

theorem candsOf_cons_cand (t : Table) (rr : String × PomRecord)
    (rs : List (String × PomRecord)) (k : String) (i : MavenLibraryInfo)
    (h : classifyRecord t rr.1 rr.2 = .candidate k i) :
    candsOf t (rr :: rs) = (k, i) :: candsOf t rs := by
  simp [candsOf, List.filterMap_cons, h]

/-- Keep-invariant over a whole fold: once the stored entry dominates every
remaining candidate for its key, it survives. -/
theorem detect_fold_keep (t : Table) :
    ∀ (rs : List (String × PomRecord)) (st st' : DState) (k : String)
      (i : MavenLibraryInfo),
      rs.foldlM (stepRR t) st = .ok st' →
      lookupInfo st.info k = some i →
      (∀ j, (k, j) ∈ candsOf t rs → j = i ∨ pyCompare j.version i.version = some .lt) →
      lookupInfo st'.info k = some i := by
  intro rs
  induction rs with
  | nil =>
    intro st st' k i hfold hst _
    simp only [List.foldlM_nil] at hfold
    cases hfold
    exact hst
  | cons rr rest ih =>
    intro st st' k i hfold hst hall
    rw [List.foldlM_cons] at hfold
    cases hstep : stepRR t st rr with
    | error e => rw [hstep] at hfold; cases hfold
    | ok st1 =>
      rw [hstep] at hfold
      have hst1 : lookupInfo st1.info k = some i :=
        detectStep_lookup_keep t rr.1 st st1 rr.2 k i hstep hst
          (fun j hj => hall j (by
            rw [candsOf_cons_cand t rr rest k j hj]
            exact List.mem_cons_self _ _))
      refine ih st1 st' k i hfold hst1 (fun j hj => hall j ?_)
      cases hcc : classifyRecord t rr.1 rr.2 with
      | candidate k0 j0 =>
        rw [candsOf_cons_cand t rr rest k0 j0 hcc]
        exact List.mem_cons_of_mem _ hj
      | notPom => simpa [candsOf, List.filterMap_cons, hcc] using hj
      | missingMeta msg => simpa [candsOf, List.filterMap_cons, hcc] using hj
      | noArtifact => simpa [candsOf, List.filterMap_cons, hcc] using hj
      | unmapped => simpa [candsOf, List.filterMap_cons, hcc] using hj

/-- Reach-invariant over a whole fold: if key `k` has a strict maximum `i`
among the candidates and the stored entry (if any) is strictly below `i`,
the fold ends with `i` stored. -/
theorem detect_fold_reach (t : Table) :
    ∀ (rs : List (String × PomRecord)) (st st' : DState) (k : String)
      (i : MavenLibraryInfo),
      rs.foldlM (stepRR t) st = .ok st' →
      (k, i) ∈ candsOf t rs →
      (∀ j, (k, j) ∈ candsOf t rs → j ≠ i → pyCompare j.version i.version = some .lt) →
      (lookupInfo st.info k = none ∨
        ∃ j0, lookupInfo st.info k = some j0 ∧
          pyCompare j0.version i.version = some .lt) →
      lookupInfo st'.info k = some i := by
  intro rs
  induction rs with
  | nil =>
    intro st st' k i _ hmem _ _
    simp [candsOf] at hmem
  | cons rr rest ih =>
    intro st st' k i hfold hmem hmax hinv
    rw [List.foldlM_cons] at hfold
    cases hstep : stepRR t st rr with
    | error e => rw [hstep] at hfold; cases hfold
    | ok st1 =>
      rw [hstep] at hfold
      cases hcc : classifyRecord t rr.1 rr.2 with
      | candidate key j =>
        have hconsEq := candsOf_cons_cand t rr rest key j hcc
        by_cases hkey : key = k
        · subst hkey
          by_cases hji : j = i
          · subst hji
            have hst1 : lookupInfo st1.info key = some j :=
              detectStep_stores t rr.1 st st1 rr.2 key j hstep hcc hinv
            refine detect_fold_keep t rest st1 st' key j hfold hst1
              (fun j' hj' => ?_)
            rcases eq_or_ne j' j with he | hne
            · exact Or.inl he
            · refine Or.inr (hmax j' ?_ hne)
              rw [hconsEq]
              exact List.mem_cons_of_mem _ hj'
          · have hltj : pyCompare j.version i.version = some .lt := by
              refine hmax j ?_ hji
              rw [hconsEq]
              exact List.mem_cons_self _ _
            have hmem' : (key, i) ∈ candsOf t rest := by
              rw [hconsEq] at hmem
              rcases List.mem_cons.mp hmem with he | hm
              · simp only [Prod.mk.injEq, true_and] at he
                exact absurd he.symm hji
              · exact hm
            have hinv1 : lookupInfo st1.info key = none ∨
                ∃ j0, lookupInfo st1.info key = some j0 ∧
                  pyCompare j0.version i.version = some .lt := by
              rcases hinv with hnone | ⟨j0, hsome, hlt0⟩
              · right
                refine ⟨j, ?_, hltj⟩
                simp only [stepRR, detectStep, hcc, hnone, Except.ok.injEq] at hstep
                rw [← hstep]
                exact lookupInfo_append_self _ _ _ hnone
              · cases hcmp : pyCompare j.version j0.version with
                | none =>
                  simp only [stepRR, detectStep, hcc, hsome, hcmp] at hstep
                  cases hstep
                | some o =>
                  cases o with
                  | gt =>
                    right
                    refine ⟨j, ?_, hltj⟩
                    simp only [stepRR, detectStep, hcc, hsome, hcmp,
                      Except.ok.injEq] at hstep
                    rw [← hstep]
                    exact lookupInfo_update_self _ _ _ _ hsome
                  | lt =>
                    right
                    refine ⟨j0, ?_, hlt0⟩
                    simp only [stepRR, detectStep, hcc, hsome, hcmp,
                      Except.ok.injEq] at hstep
                    rw [← hstep]
                    exact hsome
                  | eq =>
                    right
                    refine ⟨j0, ?_, hlt0⟩
                    simp only [stepRR, detectStep, hcc, hsome, hcmp,
                      Except.ok.injEq] at hstep
                    rw [← hstep]
                    exact hsome
            refine ih st1 st' key i hfold hmem' (fun j' hj' hne => hmax j' ?_ hne) hinv1
            rw [hconsEq]
            exact List.mem_cons_of_mem _ hj'
        · have hpres : lookupInfo st1.info k = lookupInfo st.info k :=
            detectStep_lookup_other t rr.1 st st1 rr.2 k hstep
              (fun j' hj' => by
                rw [hcc] at hj'
                cases hj'
                exact hkey rfl)
          have hmem' : (k, i) ∈ candsOf t rest := by
            rw [hconsEq] at hmem
            rcases List.mem_cons.mp hmem with he | hm
            · simp only [Prod.mk.injEq] at he
              exact absurd he.1.symm hkey
            · exact hm
          refine ih st1 st' k i hfold hmem'
            (fun j' hj' hne => hmax j' ?_ hne) (by rw [hpres]; exact hinv)
          rw [hconsEq]
          exact List.mem_cons_of_mem _ hj'
      | notPom =>
        have hpres : lookupInfo st1.info k = lookupInfo st.info k :=
          detectStep_lookup_other t rr.1 st st1 rr.2 k hstep
            (fun j' hj' => by rw [hcc] at hj'; cases hj')
        have hcands : candsOf t (rr :: rest) = candsOf t rest := by
          simp [candsOf, List.filterMap_cons, hcc]
        rw [hcands] at hmem hmax
        exact ih st1 st' k i hfold hmem hmax (by rw [hpres]; exact hinv)
      | missingMeta msg =>
        have hpres : lookupInfo st1.info k = lookupInfo st.info k :=
          detectStep_lookup_other t rr.1 st st1 rr.2 k hstep
            (fun j' hj' => by rw [hcc] at hj'; cases hj')
        have hcands : candsOf t (rr :: rest) = candsOf t rest := by
          simp [candsOf, List.filterMap_cons, hcc]
        rw [hcands] at hmem hmax
        exact ih st1 st' k i hfold hmem hmax (by rw [hpres]; exact hinv)
      | noArtifact =>
        have hpres : lookupInfo st1.info k = lookupInfo st.info k :=
          detectStep_lookup_other t rr.1 st st1 rr.2 k hstep
            (fun j' hj' => by rw [hcc] at hj'; cases hj')
        have hcands : candsOf t (rr :: rest) = candsOf t rest := by
          simp [candsOf, List.filterMap_cons, hcc]
        rw [hcands] at hmem hmax
        exact ih st1 st' k i hfold hmem hmax (by rw [hpres]; exact hinv)
      | unmapped =>
        have hpres : lookupInfo st1.info k = lookupInfo st.info k :=
          detectStep_lookup_other t rr.1 st st1 rr.2 k hstep
            (fun j' hj' => by rw [hcc] at hj'; cases hj')
        have hcands : candsOf t (rr :: rest) = candsOf t rest := by
          simp [candsOf, List.filterMap_cons, hcc]
        rw [hcands] at hmem hmax
        exact ih st1 st' k i hfold hmem hmax (by rw [hpres]; exact hinv)

/-- C1: for every collection of discovered artifacts resolving to the same
logical key, `detect_artifacts` retains exactly one entry, the one with the
strictly greatest version under the `LooseVersion` comparator, regardless of
traversal order (first conjunct: the hypothesis constrains only the
candidate multiset, so any traversal order satisfying it stores the
maximum); and a later candidate with exactly equal version never replaces
the stored first-seen entry (second conjunct: such a step returns the state
unchanged). -/
theorem detect_latest_version_wins :
    (∀ (t : Table) (repos : List RepoData) (k : String) (i : MavenLibraryInfo)
      (st : DState),
      detect_artifacts t repos = .ok st →
      (k, i) ∈ detectCandidates t repos →
      (∀ j, (k, j) ∈ detectCandidates t repos → j ≠ i →
        pyCompare j.version i.version = some .lt) →
      lookupInfo st.info k = some i) ∧
    (∀ (t : Table) (repo_dir : String) (st : DState) (r : PomRecord) (k : String)
      (j i : MavenLibraryInfo),
      classifyRecord t repo_dir r = .candidate k j →
      lookupInfo st.info k = some i →
      pyCompare j.version i.version = some .eq →
      detectStep t repo_dir st r = .ok st) := by
  constructor
  · intro t repos k i st hdet hmem hmax
    rw [detect_eq_fold] at hdet
    exact detect_fold_reach t (walkedRecords repos) ⟨[], []⟩ st k i hdet hmem hmax
      (Or.inl rfl)
  · intro t rd st r k j i hcc hst hcmp
    simp only [detectStep, hcc, hst, hcmp]

def c1tbl : Table :=
  [("androidx.core:core", { name := "androidx.core_core", path := "androidx/core/core" })]

def c1recA : PomRecord :=
  ⟨"repo1/androidx/core/core/1.0.0", "core-1.0.0.pom",
    ["  <groupId>androidx.core</groupId>\n", "  <artifactId>core</artifactId>\n",
      "  <version>1.0.0</version>\n"], false, true⟩

def c1recB : PomRecord :=
  ⟨"repo2/androidx/core/core/1.2.0", "core-1.2.0.pom",
    ["  <groupId>androidx.core</groupId>\n", "  <artifactId>core</artifactId>\n",
      "  <version>1.2.0</version>\n"], false, true⟩

def c1repos : List RepoData := [⟨"repo1", [c1recA]⟩, ⟨"repo2", [c1recB]⟩]

def c1infoA : MavenLibraryInfo :=
  ⟨"androidx.core:core", "androidx.core", "core", [.num 1, .num 0, .num 0],
    "repo1/androidx/core/core/1.0.0", "repo1", "core-1.0.0.aar"⟩

def c1infoB : MavenLibraryInfo :=
  ⟨"androidx.core:core", "androidx.core", "core", [.num 1, .num 2, .num 0],
    "repo2/androidx/core/core/1.2.0", "repo2", "core-1.2.0.aar"⟩

/-- A stored entry with the same version as `c1infoB` but a different
backing directory, for exercising the exact-tie branch. -/
def c1infoBalt : MavenLibraryInfo :=
  ⟨"androidx.core:core", "androidx.core", "core", [.num 1, .num 2, .num 0],
    "elsewhere/androidx/core/core/1.2.0", "elsewhere", "core-1.2.0.aar"⟩

theorem detect_latest_version_wins_witness :
    lookupInfo [("androidx.core:core", c1infoB)] "androidx.core:core" = some c1infoB ∧
    detectStep c1tbl "repo2" ⟨[("androidx.core:core", c1infoBalt)], []⟩ c1recB =
      .ok ⟨[("androidx.core:core", c1infoBalt)], []⟩ := by
  constructor
  · refine detect_latest_version_wins.1 c1tbl c1repos "androidx.core:core" c1infoB
      ⟨[("androidx.core:core", c1infoB)], []⟩ rfl (by decide) ?_
    intro j hj hne
    have hc : detectCandidates c1tbl c1repos =
        [("androidx.core:core", c1infoA), ("androidx.core:core", c1infoB)] := by decide
    rw [hc] at hj
    simp only [List.mem_cons, List.not_mem_nil, or_false, Prod.mk.injEq, true_and] at hj
    rcases hj with hj | hj
    · subst hj; decide
    · exact absurd hj hne
  · exact detect_latest_version_wins.2 c1tbl "repo2"
      ⟨[("androidx.core:core", c1infoBalt)], []⟩ c1recB "androidx.core:core"
      c1infoB c1infoBalt (by decide) rfl (by decide)

/-- C6: a POM file with a missing `groupId`/`artifactId`/`version` field
makes `detect_artifacts` print a diagnostic, add no entry, and continue the
walk: the step succeeds with only the diagnostic appended, and the fold over
the remaining files proceeds from that state. -/
theorem detect_missing_metadata_skips (t : Table) (repo_dir : String) (st : DState)
    (r : PomRecord) (rest : List PomRecord)
    (hpom : pyLastN 4 r.filename = ".pom")
    (hmiss : (parsePomFields r.lines).1 = "" ∨ (parsePomFields r.lines).2.1 = "" ∨
      (parsePomFields r.lines).2.2 = "") :
    detectStep t repo_dir st r = .ok { st with diags := st.diags ++
      ["Failed to find Maven artifact data in " ++ (r.root ++ "/" ++ r.filename)] } ∧
    (r :: rest).foldlM (detectStep t repo_dir) st =
      rest.foldlM (detectStep t repo_dir) { st with diags := st.diags ++
        ["Failed to find Maven artifact data in " ++ (r.root ++ "/" ++ r.filename)] } := by
  have hclass : classifyRecord t repo_dir r =
      .missingMeta ("Failed to find Maven artifact data in " ++
        (r.root ++ "/" ++ r.filename)) := by
    simp only [classifyRecord]
    rw [if_pos hpom, if_pos hmiss]
  constructor
  · simp only [detectStep, hclass]
  · rw [List.foldlM_cons]
    simp only [detectStep, hclass]
    rfl

def c6rec : PomRecord :=
  ⟨"r", "a-1.0.0.pom", ["  <groupId>g</groupId>\n", "  <version>1.0.0</version>\n"],
    false, false⟩

theorem detect_missing_metadata_skips_witness :
    detectStep [] "repo" ⟨[], []⟩ c6rec =
      .ok ⟨[], ["Failed to find Maven artifact data in " ++ ("r" ++ "/" ++ "a-1.0.0.pom")]⟩ :=
  (detect_missing_metadata_skips [] "repo" ⟨[], []⟩ c6rec [] (by decide) (by decide)).1

/-- C4 (amended): the sibling binary payload is located by trying the
plain-jar `.jar` extension first and the archive `.aar` extension second
(the claim stated the opposite order); when neither sibling exists the file
is skipped silently: the step succeeds with no diagnostic and no entry. -/
theorem detect_sibling_lookup (t : Table) (repo_dir : String) (st : DState)
    (r : PomRecord) (af : String) :
    (r.jarExists = true → locate_artifact r af = some (af ++ ".jar")) ∧
    (r.jarExists = false → r.aarExists = true →
      locate_artifact r af = some (af ++ ".aar")) ∧
    (r.jarExists = false → r.aarExists = false → locate_artifact r af = none) ∧
    (pyLastN 4 r.filename = ".pom" →
      ¬((parsePomFields r.lines).1 = "" ∨ (parsePomFields r.lines).2.1 = "" ∨
        (parsePomFields r.lines).2.2 = "") →
      r.jarExists = false → r.aarExists = false →
      detectStep t repo_dir st r = .ok st) := by
  refine ⟨?_, ?_, ?_, ?_⟩
  · intro hj; simp [locate_artifact, hj]
  · intro hj ha; simp [locate_artifact, hj, ha]
  · intro hj ha; simp [locate_artifact, hj, ha]
  · intro hpom hmeta hj ha
    have hclass : classifyRecord t repo_dir r = .noArtifact := by
      simp only [classifyRecord]
      rw [if_pos hpom, if_neg hmeta]
      have hloc : locate_artifact r (pyDropLast 4 (r.root ++ "/" ++ r.filename)) = none := by
        simp [locate_artifact, hj, ha]
      rw [hloc]
    simp only [detectStep, hclass]

def c4tbl : Table := [("g:a", { name := "g_a", path := "g/a" })]

/-- A POM whose `.jar` and `.aar` siblings both exist. -/
def c4rec : PomRecord :=
  ⟨"r/g/a/1.0.0", "a-1.0.0.pom",
    ["  <groupId>g</groupId>\n", "  <artifactId>a</artifactId>\n",
      "  <version>1.0.0</version>\n"], true, true⟩

def c4info : MavenLibraryInfo :=
  ⟨"g:a", "g", "a", [.num 1, .num 0, .num 0], "r/g/a/1.0.0", "r", "a-1.0.0.jar"⟩

/-- C4 counterexample: with both siblings present the code selects the
`.jar` sibling; the claim ("archive extension first") predicts
`a-1.0.0.aar`. -/
theorem detect_sibling_order_counterexample :
    c4rec.jarExists = true ∧ c4rec.aarExists = true ∧
    detect_artifacts c4tbl [⟨"r", [c4rec]⟩] = .ok ⟨[("g:a", c4info)], []⟩ ∧
    c4info.file = "a-1.0.0.jar" ∧ ("a-1.0.0.jar" : String) ≠ "a-1.0.0.aar" := by
  refine ⟨rfl, rfl, rfl, rfl, by decide⟩

/-- A POM whose `.aar` sibling alone exists. -/
def c4recAarOnly : PomRecord :=
  ⟨"r/g/a/1.0.0", "a-1.0.0.pom",
    ["  <groupId>g</groupId>\n", "  <artifactId>a</artifactId>\n",
      "  <version>1.0.0</version>\n"], false, true⟩

/-- A POM with complete metadata but no binary sibling at all. -/
def c4recNone : PomRecord :=
  ⟨"r", "b-1.0.0.pom",
    ["  <groupId>g</groupId>\n", "  <artifactId>b</artifactId>\n",
      "  <version>1.0.0</version>\n"], false, false⟩

theorem detect_sibling_lookup_witness :
    locate_artifact c4rec "x" = some ("x" ++ ".jar") ∧
    locate_artifact c4recAarOnly "x" = some ("x" ++ ".aar") ∧
    locate_artifact c4recNone "x" = none ∧
    detectStep [] "repo" ⟨[], []⟩ c4recNone = .ok ⟨[], []⟩ := by
  refine ⟨(detect_sibling_lookup [] "repo" ⟨[], []⟩ c4rec "x").1 rfl,
    (detect_sibling_lookup [] "repo" ⟨[], []⟩ c4recAarOnly "x").2.1 rfl rfl,
    (detect_sibling_lookup [] "repo" ⟨[], []⟩ c4recNone "x").2.2.1 rfl rfl,
    (detect_sibling_lookup [] "repo" ⟨[], []⟩ c4recNone "x").2.2.2 (by decide)
      (by decide) rfl rfl⟩

/-! ### Claims about the `pom2bp` argument ordering (C3) -/

theorem rewriteNames_eq_sorted (t : Table) :
    rewriteNames t = List.insertionSort pyStrLe (t.map Prod.fst) := by
  have hperm : (((t.map Prod.fst).filter (fun n => containsChar ':' n)) ++
      ((t.map Prod.fst).filter (fun n => !containsChar ':' n))).Perm
        (t.map Prod.fst) :=
    List.filter_append_perm _ _
  refine List.eq_of_perm_of_sorted ?_ (List.sorted_insertionSort pyStrLe _)
    (List.sorted_insertionSort pyStrLe _)
  exact ((List.perm_insertionSort pyStrLe _).trans hperm).trans
    (List.perm_insertionSort pyStrLe _).symm

/-- C3 (amended): the mapping-table rewrite rules appear in plain lexical
order of their keys — `sorted` is applied to the concatenation of the
colon-first and bare lists, erasing the grouping — and the override-table
rules are appended after them in the override table's insertion order (not
sorted). -/
theorem pom2bp_rewrite_rule_order (t : Table) (d : List (String × String)) :
    rewriteNames t = List.insertionSort pyStrLe (t.map Prod.fst) ∧
    pom2bpArgs t d = pom2bpStaticArgs ++
      (List.insertionSort pyStrLe (t.map Prod.fst)).map
        (fun n => "-rewrite=^" ++ n ++ "$=" ++ entryName t n) ++
      d.map (fun kv => "-rewrite=^" ++ kv.1 ++ "$=" ++ kv.2) ++
      extraStaticLibsArgs t ++ optionalUsesLibsArgs t ++ hostArgs t ++
      hostAndDeviceArgs t ++ ["."] := by
  refine ⟨rewriteNames_eq_sorted t, ?_⟩
  unfold pom2bpArgs mapRewriteArgs overrideRewriteArgs
  rw [rewriteNames_eq_sorted t]

/-- Order on override entries by key, for stating the claimed (not actual)
sorted override ordering. -/
def depKeyLe (a b : String × String) : Prop := pyStrLe a.1 b.1

instance : DecidableRel depKeyLe := fun a b => instDecPyStrLe a.1 b.1

/-- Modelled from the spec (the ordering claim C3 asserts, used only to
refute it): mapping-table rules with colon-containing keys first in lexical
order, then bare keys in lexical order, then override rules in lexical
order of their keys. -/
def specC3RewriteArgs (t : Table) (d : List (String × String)) : List String :=
  ((List.insertionSort pyStrLe ((t.map Prod.fst).filter (fun n => containsChar ':' n))) ++
    (List.insertionSort pyStrLe ((t.map Prod.fst).filter (fun n => !containsChar ':' n)))).map
      (fun n => "-rewrite=^" ++ n ++ "$=" ++ entryName t n) ++
  (List.insertionSort depKeyLe d).map (fun kv => "-rewrite=^" ++ kv.1 ++ "$=" ++ kv.2)

/-- C3 counterexample: on the source's own tables the emitted argument list
differs from the claimed ordering, because `deps_rewrite` is appended in
insertion order, which is not lexical (the first appended rule is for
"auto-common" although "androidx.test:core" sorts before it). -/
theorem pom2bp_rewrite_order_counterexample :
    pom2bpArgs (populateTable maven_to_make) deps_rewrite ≠
      pom2bpStaticArgs ++
        specC3RewriteArgs (populateTable maven_to_make) deps_rewrite ++
        extraStaticLibsArgs (populateTable maven_to_make) ++
        optionalUsesLibsArgs (populateTable maven_to_make) ++
        hostArgs (populateTable maven_to_make) ++
        hostAndDeviceArgs (populateTable maven_to_make) ++ ["."] := by
  decide

/-! ### C10: derived build names and paths -/

/-- C10: a mapping-table key without an explicit `name` gets the key with
every `:` replaced by `_` (dots preserved, since only `:` is mapped); one
without an explicit `path` gets the key with every `.` and `:` replaced by
`/`; declared fields are kept unchanged; and the population loop applies
exactly this per-entry transformation. -/
theorem maven_to_make_auto_population (key : String) (e : MakeEntry0) :
    (e.name = none → (populateEntry key e).name.data =
      key.data.map (fun c => if c = ':' then '_' else c)) ∧
    (e.path = none → (populateEntry key e).path.data =
      key.data.map (fun c => if c = '.' ∨ c = ':' then '/' else c)) ∧
    (∀ n, e.name = some n → (populateEntry key e).name = n) ∧
    (∀ p, e.path = some p → (populateEntry key e).path = p) ∧
    populateTable [(key, e)] = [(key, populateEntry key e)] := by
  refine ⟨?_, ?_, ?_, ?_, rfl⟩
  · intro hn
    simp [populateEntry, hn, name_for_artifact, replaceChar]
  · intro hp
    simp only [populateEntry, hp, Option.getD_none, path_for_artifact, replaceChar]
    rw [List.map_map]
    apply List.map_congr_left
    intro c _
    by_cases h1 : c = '.'
    · subst h1; decide
    · by_cases h2 : c = ':'
      · subst h2; decide
      · simp [Function.comp, h1, h2]
  · intro n hn; simp [populateEntry, hn]
  · intro p hp; simp [populateEntry, hp]

theorem maven_to_make_auto_population_witness :
    (populateEntry "androidx.core:core" {}).name.data =
      ("androidx.core:core" : String).data.map (fun c => if c = ':' then '_' else c) ∧
    (populateEntry "androidx.core:core" {}).path.data =
      ("androidx.core:core" : String).data.map
        (fun c => if c = '.' ∨ c = ':' then '/' else c) ∧
    (populateEntry "x" { name := some "n", path := some "p" }).name = "n" ∧
    (populateEntry "x" { name := some "n", path := some "p" }).path = "p" :=
  ⟨(maven_to_make_auto_population "androidx.core:core" {}).1 rfl,
    (maven_to_make_auto_population "androidx.core:core" {}).2.1 rfl,
    (maven_to_make_auto_population "x" _).2.2.1 "n" rfl,
    (maven_to_make_auto_population "x" _).2.2.2.1 "p" rfl⟩

/-! ### C7 and C9: coordinate parsing and URL derivation -/

/-- C7: `GMavenArtifact` construction fails iff the colon-delimited field
count is not exactly four or a field is empty; on success the four fields
are taken over unchanged. -/
theorem gmaven_parse_characterization (s : String) :
    ((∃ a, GMavenArtifact.init s = .ok a) ↔
      ((splitChar ':' s).length = 4 ∧ ∀ f ∈ splitChar ':' s, f ≠ "")) ∧
    (∀ a, GMavenArtifact.init s = .ok a →
      splitChar ':' s = [a.group, a.library, a.version, a.ext]) := by
  rcases hl : splitChar ':' s with _ | ⟨g, _ | ⟨l2, _ | ⟨v, _ | ⟨e, _ | ⟨x, rest⟩⟩⟩⟩⟩
  · constructor
    · constructor
      · rintro ⟨a, ha⟩
        simp [GMavenArtifact.init, hl] at ha
      · rintro ⟨hlen, _⟩
        simp at hlen
    · intro a ha
      simp [GMavenArtifact.init, hl] at ha
  · constructor
    · constructor
      · rintro ⟨a, ha⟩
        simp [GMavenArtifact.init, hl] at ha
      · rintro ⟨hlen, _⟩
        simp at hlen
    · intro a ha
      simp [GMavenArtifact.init, hl] at ha
  · constructor
    · constructor
      · rintro ⟨a, ha⟩
        simp [GMavenArtifact.init, hl] at ha
      · rintro ⟨hlen, _⟩
        simp at hlen
    · intro a ha
      simp [GMavenArtifact.init, hl] at ha
  · constructor
    · constructor
      · rintro ⟨a, ha⟩
        simp [GMavenArtifact.init, hl] at ha
      · rintro ⟨hlen, _⟩
        simp at hlen
    · intro a ha
      simp [GMavenArtifact.init, hl] at ha
  · by_cases hc : g = "" ∨ l2 = "" ∨ v = "" ∨ e = ""
    · constructor
      · constructor
        · rintro ⟨a, ha⟩
          simp [GMavenArtifact.init, hl, hc] at ha
        · rintro ⟨_, hne⟩
          exfalso
          rcases hc with h | h | h | h
          · exact hne g (by simp) h
          · exact hne l2 (by simp) h
          · exact hne v (by simp) h
          · exact hne e (by simp) h
      · intro a ha
        simp [GMavenArtifact.init, hl, hc] at ha
    · constructor
      · constructor
        · intro _
          constructor
          · rfl
          · push_neg at hc
            intro f hf
            simp only [List.mem_cons, List.not_mem_nil, or_false] at hf
            rcases hf with rfl | rfl | rfl | rfl
            · exact hc.1
            · exact hc.2.1
            · exact hc.2.2.1
            · exact hc.2.2.2
        · intro _
          refine ⟨⟨g, replaceChar '.' '/' g, l2, g ++ ":" ++ l2, v, e⟩, ?_⟩
          simp [GMavenArtifact.init, hl, hc]
      · intro a ha
        simp only [GMavenArtifact.init, hl, if_neg hc, Except.ok.injEq] at ha
        rw [← ha]
  · constructor
    · constructor
      · rintro ⟨a, ha⟩
        simp [GMavenArtifact.init, hl] at ha
      · rintro ⟨hlen, _⟩
        simp at hlen
    · intro a ha
      simp [GMavenArtifact.init, hl] at ha

theorem gmaven_parse_characterization_witness :
    (∃ a, GMavenArtifact.init "androidx.core:core:1.0.0:aar" = .ok a) ∧
    ¬(∃ a, GMavenArtifact.init "a:b:c" = .ok a) := by
  constructor
  · exact (gmaven_parse_characterization "androidx.core:core:1.0.0:aar").1.mpr
      (by decide)
  · intro hex
    exact absurd ((gmaven_parse_characterization "a:b:c").1.mp hex).1 (by decide)

/-- C9: for every validly constructed coordinate, the POM and artifact URLs
are the base URL, the group with dots replaced by path separators, the
library, the version, and a `<library>-<version>.<pom|ext>` filename, in
exactly those positions. -/
theorem gmaven_url_shape (s : String) (a : GMavenArtifact)
    (h : GMavenArtifact.init s = .ok a) :
    a.get_pom_file_url = GMAVEN_BASE_URL ++ "/" ++ replaceChar '.' '/' a.group ++
      "/" ++ a.library ++ "/" ++ a.version ++ "/" ++
      (a.library ++ "-" ++ a.version ++ ".pom") ∧
    a.get_artifact_url = GMAVEN_BASE_URL ++ "/" ++ replaceChar '.' '/' a.group ++
      "/" ++ a.library ++ "/" ++ a.version ++ "/" ++
      (a.library ++ "-" ++ a.version ++ "." ++ a.ext) := by
  have hgp : a.group_path = replaceChar '.' '/' a.group := by
    rcases hl : splitChar ':' s with _ | ⟨g, _ | ⟨l2, _ | ⟨v, _ | ⟨e, _ | ⟨x, rest⟩⟩⟩⟩⟩
    · simp [GMavenArtifact.init, hl] at h
    · simp [GMavenArtifact.init, hl] at h
    · simp [GMavenArtifact.init, hl] at h
    · simp [GMavenArtifact.init, hl] at h
    · by_cases hc : g = "" ∨ l2 = "" ∨ v = "" ∨ e = ""
      · simp [GMavenArtifact.init, hl, hc] at h
      · simp only [GMavenArtifact.init, hl, if_neg hc, Except.ok.injEq] at h
        rw [← h]
    · simp [GMavenArtifact.init, hl] at h
  constructor
  · simp [GMavenArtifact.get_pom_file_url, hgp]
  · simp [GMavenArtifact.get_artifact_url, hgp]

def c9art : GMavenArtifact :=
  ⟨"androidx.core", "androidx/core", "core", "androidx.core:core", "1.0.0", "aar"⟩

theorem gmaven_url_shape_witness :
    c9art.get_pom_file_url = GMAVEN_BASE_URL ++ "/" ++
      replaceChar '.' '/' c9art.group ++ "/" ++ c9art.library ++ "/" ++
      c9art.version ++ "/" ++ (c9art.library ++ "-" ++ c9art.version ++ ".pom") ∧
    c9art.get_artifact_url = GMAVEN_BASE_URL ++ "/" ++
      replaceChar '.' '/' c9art.group ++ "/" ++ c9art.library ++ "/" ++
      c9art.version ++ "/" ++
      (c9art.library ++ "-" ++ c9art.version ++ "." ++ c9art.ext) :=
  gmaven_url_shape "androidx.core:core:1.0.0:aar" c9art rfl

/-! ### File-system model for the archive transformer

Directory trees are modelled as explicit lists of file paths and directory
paths; a path is a list of name components relative to an implicit root
(the root itself is not listed).  `os.walk` enumeration order is
OS-dependent; the model uses list order, which the proofs do not rely on.
-/

/-- A file-system path: a list of name components. -/
abbrev FsPath := List String

/-- A directory tree: the files and the directories below the root. -/
structure Fs where
  files : List FsPath
  dirs : List FsPath
deriving DecidableEq, Repr

/-- Insert a path unless already present (creating an existing file or
directory is a no-op for the path structure). -/
def addIfAbsent (l : List FsPath) (p : FsPath) : List FsPath :=
  if p ∈ l then l else l ++ [p]

/-- The nonempty proper ancestors of a path (the directories that
`extractall` / `os.makedirs` create implicitly). -/
def properAncestors (p : FsPath) : List FsPath :=
  (List.range p.length).filterMap (fun i => if i = 0 then none else some (p.take i))

/-- An archive's members. -/
structure Zip where
  fileEntries : List FsPath
  dirEntries : List FsPath
deriving DecidableEq, Repr

/-- Extract one file member: create its parent directories and the file
(overwriting in place). -/
def extractOneFile (fs : Fs) (p : FsPath) : Fs :=
  { files := addIfAbsent fs.files p
    dirs := (properAncestors p).foldl addIfAbsent fs.dirs }

/-- Extract one directory member. -/
def extractOneDir (fs : Fs) (p : FsPath) : Fs :=
  { fs with dirs := addIfAbsent ((properAncestors p).foldl addIfAbsent fs.dirs) p }

/-- `zip.extractall(target_dir)`: create every member below the target. -/
def extractall (z : Zip) (fs : Fs) : Fs :=
  z.fileEntries.foldl extractOneFile (z.dirEntries.foldl extractOneDir fs)

/-- `if os.path.exists(p): os.remove(p)` — `os.remove` on a directory
raises, modelled as an error. -/
def removeFileIfExists (fs : Fs) (p : FsPath) : Except Unit Fs :=
  if p ∈ fs.files then .ok { fs with files := fs.files.erase p }
  else if p ∈ fs.dirs then .error ()
  else .ok fs

/-- `p` is an immediate entry of directory `d`. -/
def isChildOf (d p : FsPath) : Bool :=
  (p.length == d.length + 1) && (p.take d.length == d)

/-- The immediate subdirectories of `d` (what the walk yields as `dirs`). -/
def childDirs (fs : Fs) (d : FsPath) : List FsPath :=
  fs.dirs.filter (fun p => isChildOf d p)

/-- `not os.listdir(d)`: no immediate file or directory entry. -/
def dirIsEmpty (fs : Fs) (d : FsPath) : Bool :=
  !(fs.files.any (fun p => isChildOf d p)) && !(fs.dirs.any (fun p => isChildOf d p))

/-- `os.rmdir(d)`. -/
def eraseDir (fs : Fs) (d : FsPath) : Fs := { fs with dirs := fs.dirs.erase d }

/-- One iteration of the walk's inner loop: `if not os.listdir(dir_path):
os.rmdir(dir_path)`. -/
def sweepStep (acc : Fs) (c : FsPath) : Fs :=
  if dirIsEmpty acc c then eraseDir acc c else acc

/-- The body of the walk at one directory: `for dir in dirs: if not
os.listdir(dir_path): os.rmdir(dir_path)`. -/
def sweepChildren (cs : List FsPath) (fs : Fs) : Fs :=
  cs.foldl sweepStep fs

/-- The `os.walk(target_dir)` empty-directory sweep of `process_aar`,
top-down: at each directory, remove its children that are empty at that
moment, then descend into the children that still exist (descending into a
removed one hits a scandir error that `os.walk` silently swallows).  `fuel`
bounds the recursion depth; any bound at least the deepest directory is exact. -/
def walkRemoveAux : Nat → Fs → FsPath → Fs
  | 0, fs, _ => fs
  | fuel + 1, fs, root =>
    let cs := childDirs fs root
    let fs1 := sweepChildren cs fs
    cs.foldl (fun acc c => if c ∈ acc.dirs then walkRemoveAux fuel acc c else acc) fs1

/-- Depth bound for the walk. -/
def fsDepth (fs : Fs) : Nat := (fs.dirs.map List.length).foldr max 0

/-- Lines 354-359 of the source: one top-down `os.walk` sweep from the
target directory. -/
def removeEmptyDirs (fs : Fs) : Fs := walkRemoveAux (fsDepth fs) fs []

/-- `process_aar(artifact_file, target_dir)`: extract the archive, delete a
top-level `classes.jar` if present, sweep empty directories, then delete
every Denylist path that exists. -/
def process_aar (z : Zip) (fs : Fs) : Except Unit Fs := do
  let fs := extractall z fs
  let fs ← removeFileIfExists fs ["classes.jar"]
  let fs := removeEmptyDirs fs
  blacklist_files.foldlM removeFileIfExists fs

/-- Well-formedness of a modelled tree: no duplicate paths, no empty paths,
and every nonempty proper ancestor of a file or directory is a directory. -/
def FsWf (fs : Fs) : Prop :=
  fs.files.Nodup ∧ fs.dirs.Nodup ∧
  (∀ p ∈ fs.dirs, p ≠ []) ∧
  (∀ p ∈ fs.dirs, ∀ i, i < p.length → 0 < i → p.take i ∈ fs.dirs) ∧
  (∀ p ∈ fs.files, p ≠ [] ∧ ∀ i, i < p.length → 0 < i → p.take i ∈ fs.dirs)

instance instDecFsWf (fs : Fs) : Decidable (FsWf fs) := by
  unfold FsWf
  infer_instance

/-- Well-formedness of an archive: no empty member names. -/
def ZipWf (z : Zip) : Prop :=
  (∀ p ∈ z.fileEntries, p ≠ []) ∧ (∀ p ∈ z.dirEntries, p ≠ [])

instance instDecZipWf (z : Zip) : Decidable (ZipWf z) := by
  unfold ZipWf
  infer_instance

theorem mem_addIfAbsent (l : List FsPath) (p q : FsPath) :
    q ∈ addIfAbsent l p ↔ q ∈ l ∨ q = p := by
  unfold addIfAbsent
  by_cases h : p ∈ l
  · rw [if_pos h]
    constructor
    · exact Or.inl
    · rintro (hq | rfl)
      · exact hq
      · exact h
  · rw [if_neg h]
    simp [List.mem_append]

theorem nodup_addIfAbsent (l : List FsPath) (p : FsPath) (h : l.Nodup) :
    (addIfAbsent l p).Nodup := by
  unfold addIfAbsent
  by_cases hp : p ∈ l
  · rwa [if_pos hp]
  · rw [if_neg hp]
    simp [List.nodup_append, h, hp]

theorem mem_foldl_addIfAbsent (ds : List FsPath) :
    ∀ (l : List FsPath) (q : FsPath),
      q ∈ ds.foldl addIfAbsent l ↔ q ∈ l ∨ q ∈ ds := by
  induction ds with
  | nil => simp
  | cons d rest ih =>
    intro l q
    simp only [List.foldl_cons, ih, mem_addIfAbsent, List.mem_cons]
    tauto

theorem nodup_foldl_addIfAbsent (ds : List FsPath) :
    ∀ l, l.Nodup → (ds.foldl addIfAbsent l).Nodup := by
  induction ds with
  | nil => intro l h; exact h
  | cons d rest ih => intro l h; exact ih _ (nodup_addIfAbsent _ _ h)

theorem mem_properAncestors (p q : FsPath) :
    q ∈ properAncestors p ↔ ∃ i, 0 < i ∧ i < p.length ∧ q = p.take i := by
  unfold properAncestors
  simp only [List.mem_filterMap, List.mem_range]
  constructor
  · rintro ⟨i, hi, hopt⟩
    by_cases h0 : i = 0
    · simp [h0] at hopt
    · simp only [if_neg h0, Option.some.injEq] at hopt
      exact ⟨i, Nat.pos_of_ne_zero h0, hi, hopt.symm⟩
  · rintro ⟨i, hpos, hi, rfl⟩
    exact ⟨i, hi, by simp [Nat.pos_iff_ne_zero.mp hpos]⟩

theorem properAncestors_ne_nil (p q : FsPath) (h : q ∈ properAncestors p) : q ≠ [] := by
  rw [mem_properAncestors] at h
  obtain ⟨i, hpos, hi, rfl⟩ := h
  have : (p.take i).length = i := by
    rw [List.length_take]
    omega
  intro hq
  rw [hq] at this
  simp at this
  omega

theorem properAncestors_take (p q : FsPath) (j : Nat)
    (h : q ∈ properAncestors p) (hj : 0 < j) (hjq : j < q.length) :
    q.take j ∈ properAncestors p := by
  rw [mem_properAncestors] at h ⊢
  obtain ⟨i, hpos, hi, rfl⟩ := h
  have hlen : (p.take i).length = i := by
    rw [List.length_take]; omega
  refine ⟨j, hj, by omega, ?_⟩
  rw [List.take_take]
  congr 1
  omega

theorem files_foldl_extractOneDir (ds : List FsPath) :
    ∀ fs, (ds.foldl extractOneDir fs).files = fs.files := by
  induction ds with
  | nil => intro fs; rfl
  | cons d rest ih => intro fs; rw [List.foldl_cons, ih]; rfl

theorem mem_files_foldl_extractOneFile (ps : List FsPath) :
    ∀ fs q, q ∈ (ps.foldl extractOneFile fs).files ↔ q ∈ fs.files ∨ q ∈ ps := by
  induction ps with
  | nil => simp
  | cons p rest ih =>
    intro fs q
    simp only [List.foldl_cons, ih, extractOneFile, mem_addIfAbsent, List.mem_cons]
    tauto

/-- File membership after `extractall`. -/
theorem mem_files_extractall (z : Zip) (fs : Fs) (q : FsPath) :
    q ∈ (extractall z fs).files ↔ q ∈ fs.files ∨ q ∈ z.fileEntries := by
  unfold extractall
  rw [mem_files_foldl_extractOneFile, files_foldl_extractOneDir]

theorem nodup_files_extractall (z : Zip) (fs : Fs) (h : fs.files.Nodup) :
    (extractall z fs).files.Nodup := by
  unfold extractall
  have h2 : ∀ (ps : List FsPath) (g : Fs), g.files.Nodup →
      (ps.foldl extractOneFile g).files.Nodup := by
    intro ps
    induction ps with
    | nil => intro g hg; exact hg
    | cons p rest ih =>
      intro g hg
      rw [List.foldl_cons]
      exact ih _ (nodup_addIfAbsent _ _ hg)
  refine h2 _ _ ?_
  rw [files_foldl_extractOneDir]
  exact h

theorem mem_dirs_foldl_extractOneFile (ps : List FsPath) :
    ∀ fs q, q ∈ (ps.foldl extractOneFile fs).dirs ↔
      q ∈ fs.dirs ∨ ∃ p ∈ ps, q ∈ properAncestors p := by
  induction ps with
  | nil => simp
  | cons p rest ih =>
    intro fs q
    simp only [List.foldl_cons, ih, extractOneFile, mem_foldl_addIfAbsent]
    constructor
    · rintro ((h | h) | ⟨x, hx, hq⟩)
      · exact Or.inl h
      · exact Or.inr ⟨p, List.mem_cons_self _ _, h⟩
      · exact Or.inr ⟨x, List.mem_cons_of_mem _ hx, hq⟩
    · rintro (h | ⟨x, hx, hq⟩)
      · exact Or.inl (Or.inl h)
      · rcases List.mem_cons.mp hx with rfl | hx'
        · exact Or.inl (Or.inr hq)
        · exact Or.inr ⟨x, hx', hq⟩

theorem mem_dirs_foldl_extractOneDir (ds : List FsPath) :
    ∀ fs q, q ∈ (ds.foldl extractOneDir fs).dirs ↔
      q ∈ fs.dirs ∨ q ∈ ds ∨ ∃ p ∈ ds, q ∈ properAncestors p := by
  induction ds with
  | nil => simp
  | cons p rest ih =>
    intro fs q
    simp only [List.foldl_cons, ih, extractOneDir, mem_addIfAbsent,
      mem_foldl_addIfAbsent]
    constructor
    · rintro (((h | h) | h) | h | ⟨x, hx, hq⟩)
      · exact Or.inl h
      · exact Or.inr (Or.inr ⟨p, List.mem_cons_self _ _, h⟩)
      · exact Or.inr (Or.inl (by rw [h]; exact List.mem_cons_self _ _))
      · exact Or.inr (Or.inl (List.mem_cons_of_mem _ h))
      · exact Or.inr (Or.inr ⟨x, List.mem_cons_of_mem _ hx, hq⟩)
    · rintro (h | h | ⟨x, hx, hq⟩)
      · exact Or.inl (Or.inl (Or.inl h))
      · rcases List.mem_cons.mp h with rfl | h'
        · exact Or.inl (Or.inr rfl)
        · exact Or.inr (Or.inl h')
      · rcases List.mem_cons.mp hx with rfl | hx'
        · exact Or.inl (Or.inl (Or.inr hq))
        · exact Or.inr (Or.inr ⟨x, hx', hq⟩)

/-- Directory membership after `extractall`. -/
theorem mem_dirs_extractall (z : Zip) (fs : Fs) (q : FsPath) :
    q ∈ (extractall z fs).dirs ↔
      (q ∈ fs.dirs ∨ q ∈ z.dirEntries ∨
        ∃ p ∈ z.dirEntries, q ∈ properAncestors p) ∨
      (∃ p ∈ z.fileEntries, q ∈ properAncestors p) := by
  unfold extractall
  rw [mem_dirs_foldl_extractOneFile, mem_dirs_foldl_extractOneDir]

theorem nodup_dirs_extractall (z : Zip) (fs : Fs) (h : fs.dirs.Nodup) :
    (extractall z fs).dirs.Nodup := by
  unfold extractall
  have h1 : ∀ (ds : List FsPath) (g : Fs), g.dirs.Nodup →
      (ds.foldl extractOneDir g).dirs.Nodup := by
    intro ds
    induction ds with
    | nil => intro g hg; exact hg
    | cons d rest ih =>
      intro g hg
      rw [List.foldl_cons]
      exact ih _ (nodup_addIfAbsent _ _ (nodup_foldl_addIfAbsent _ _ hg))
  have h2 : ∀ (ps : List FsPath) (g : Fs), g.dirs.Nodup →
      (ps.foldl extractOneFile g).dirs.Nodup := by
    intro ps
    induction ps with
    | nil => intro g hg; exact hg
    | cons p rest ih =>
      intro g hg
      rw [List.foldl_cons]
      exact ih _ (nodup_foldl_addIfAbsent _ _ hg)
  exact h2 _ _ (h1 _ _ h)

/-- `extractall` preserves well-formedness (given nonempty member names). -/
theorem extractall_wf (z : Zip) (fs : Fs) (hfs : FsWf fs) (hz : ZipWf z) :
    FsWf (extractall z fs) := by
  obtain ⟨hfn, hdn, hdne, hdcl, hfcl⟩ := hfs
  refine ⟨nodup_files_extractall z fs hfn, nodup_dirs_extractall z fs hdn, ?_, ?_, ?_⟩
  · intro p hp
    rw [mem_dirs_extractall] at hp
    rcases hp with (h | h | ⟨x, _, h⟩) | ⟨x, _, h⟩
    · exact hdne p h
    · exact hz.2 p h
    · exact properAncestors_ne_nil x p h
    · exact properAncestors_ne_nil x p h
  · intro p hp i hi1 hi2
    rw [mem_dirs_extractall] at hp ⊢
    rcases hp with (h | h | ⟨x, hx, h⟩) | ⟨x, hx, h⟩
    · exact Or.inl (Or.inl (hdcl p h i hi1 hi2))
    · refine Or.inl (Or.inr (Or.inr ⟨p, h, ?_⟩))
      rw [mem_properAncestors]
      exact ⟨i, hi2, hi1, rfl⟩
    · exact Or.inl (Or.inr (Or.inr ⟨x, hx, properAncestors_take x p i h hi2 hi1⟩))
    · exact Or.inr ⟨x, hx, properAncestors_take x p i h hi2 hi1⟩
  · intro p hp
    rw [mem_files_extractall] at hp
    rcases hp with h | h
    · obtain ⟨hne, hcl⟩ := hfcl p h
      refine ⟨hne, fun i hi1 hi2 => ?_⟩
      rw [mem_dirs_extractall]
      exact Or.inl (Or.inl (hcl i hi1 hi2))
    · refine ⟨hz.1 p h, fun i hi1 hi2 => ?_⟩
      rw [mem_dirs_extractall]
      refine Or.inr ⟨p, h, ?_⟩
      rw [mem_properAncestors]
      exact ⟨i, hi2, hi1, rfl⟩

/-- Specification of the guarded `os.remove` when it succeeds. -/
theorem removeFileIfExists_spec (fs : Fs) (p : FsPath) (fs' : Fs)
    (h : removeFileIfExists fs p = .ok fs') :
    fs'.dirs = fs.dirs ∧ (∀ q, q ∈ fs'.files → q ∈ fs.files) ∧
    (fs.files.Nodup → fs'.files.Nodup) ∧
    (fs.files.Nodup → p ∉ fs'.files) ∧
    (∀ q, q ≠ p → q ∈ fs.files → q ∈ fs'.files) := by
  unfold removeFileIfExists at h
  by_cases hp : p ∈ fs.files
  · rw [if_pos hp] at h
    cases h
    refine ⟨rfl, ?_, ?_, ?_, ?_⟩
    · intro q hq
      exact (List.erase_sublist p fs.files).subset hq
    · intro hn
      exact List.Nodup.sublist (List.erase_sublist p fs.files) hn
    · intro hn hmem
      rw [hn.mem_erase_iff] at hmem
      exact hmem.1 rfl
    · intro q hq hmem
      exact (List.mem_erase_of_ne hq).mpr hmem
  · rw [if_neg hp] at h
    by_cases hd : p ∈ fs.dirs
    · rw [if_pos hd] at h
      cases h
    · rw [if_neg hd] at h
      cases h
      exact ⟨rfl, fun q hq => hq, fun hn => hn, fun _ => hp, fun q _ hq => hq⟩

/-- Over a whole fold of guarded removes, directories are untouched and
files only disappear. -/
theorem foldlM_remove_spec :
    ∀ (bs : List FsPath) (fs fs' : Fs),
      bs.foldlM removeFileIfExists fs = .ok fs' →
      fs'.dirs = fs.dirs ∧ (∀ q, q ∈ fs'.files → q ∈ fs.files) ∧
      (fs.files.Nodup → fs'.files.Nodup) := by
  intro bs
  induction bs with
  | nil =>
    intro fs fs' h
    simp only [List.foldlM_nil] at h
    cases h
    exact ⟨rfl, fun q hq => hq, fun hn => hn⟩
  | cons b rest ih =>
    intro fs fs' h
    rw [List.foldlM_cons] at h
    cases hstep : removeFileIfExists fs b with
    | error e => rw [hstep] at h; cases h
    | ok fs1 =>
      rw [hstep] at h
      obtain ⟨hd1, hf1, hn1, _, _⟩ := removeFileIfExists_spec fs b fs1 hstep
      obtain ⟨hd2, hf2, hn2⟩ := ih fs1 fs' h
      exact ⟨hd2.trans hd1, fun q hq => hf1 q (hf2 q hq), fun hn => hn2 (hn1 hn)⟩

/-- Every path in the removed list is absent from the files afterwards. -/
theorem foldlM_remove_removes :
    ∀ (bs : List FsPath) (fs fs' : Fs),
      bs.foldlM removeFileIfExists fs = .ok fs' → fs.files.Nodup →
      ∀ b ∈ bs, b ∉ fs'.files := by
  intro bs
  induction bs with
  | nil => intro fs fs' _ _ b hb; cases hb
  | cons b0 rest ih =>
    intro fs fs' h hn b hb
    rw [List.foldlM_cons] at h
    cases hstep : removeFileIfExists fs b0 with
    | error e => rw [hstep] at h; cases h
    | ok fs1 =>
      rw [hstep] at h
      obtain ⟨_, _, hn1, hout, _⟩ := removeFileIfExists_spec fs b0 fs1 hstep
      rcases List.mem_cons.mp hb with rfl | hbr
      · intro hmem
        obtain ⟨_, hf2, _⟩ := foldlM_remove_spec rest fs1 fs' h
        exact hout hn (hf2 b hmem)
      · exact ih fs1 fs' h (hn1 hn) b hbr

/-- A path absent from the files stays absent across the fold. -/
theorem foldlM_remove_preserves_absent (bs : List FsPath) (fs fs' : Fs) (q : FsPath)
    (h : bs.foldlM removeFileIfExists fs = .ok fs') (habs : q ∉ fs.files) :
    q ∉ fs'.files := by
  intro hmem
  obtain ⟨_, hf, _⟩ := foldlM_remove_spec bs fs fs' h
  exact habs (hf q hmem)

theorem isChildOf_iff (d p : FsPath) :
    isChildOf d p = true ↔ p.length = d.length + 1 ∧ p.take d.length = d := by
  unfold isChildOf
  simp [Bool.and_eq_true, beq_iff_eq]

theorem dirIsEmpty_iff (fs : Fs) (d : FsPath) :
    dirIsEmpty fs d = true ↔
      (∀ p ∈ fs.files, ¬ isChildOf d p = true) ∧
      (∀ p ∈ fs.dirs, ¬ isChildOf d p = true) := by
  unfold dirIsEmpty
  simp [Bool.and_eq_true, Bool.not_eq_true', List.any_eq_false]

theorem dirIsEmpty_mono (fs acc : Fs) (c : FsPath) (hf : acc.files = fs.files)
    (hd : ∀ q, q ∈ acc.dirs → q ∈ fs.dirs) (h : dirIsEmpty fs c = true) :
    dirIsEmpty acc c = true := by
  rw [dirIsEmpty_iff] at h ⊢
  refine ⟨fun p hp => h.1 p ?_, fun p hp => h.2 p (hd p hp)⟩
  rw [← hf]
  exact hp

theorem mem_childDirs (fs : Fs) (d q : FsPath) :
    q ∈ childDirs fs d ↔ q ∈ fs.dirs ∧ isChildOf d q = true := by
  simp [childDirs, List.mem_filter]

theorem childDirs_nodup (fs : Fs) (d : FsPath) (h : fs.dirs.Nodup) :
    (childDirs fs d).Nodup := h.filter _

/-- The immediate child of a prefix inside a longer path. -/
theorem isChildOf_take (p : FsPath) (i : Nat) (h1 : i + 1 ≤ p.length) :
    isChildOf (p.take i) (p.take (i + 1)) = true := by
  rw [isChildOf_iff]
  have hli : (p.take i).length = i := by rw [List.length_take]; omega
  constructor
  · rw [List.length_take, hli]; omega
  · rw [hli, List.take_take]
    congr 1
    omega

/-- `os.rmdir` of an empty directory preserves well-formedness. -/
theorem eraseDir_wf (fs : Fs) (c : FsPath) (hwf : FsWf fs)
    (hemp : dirIsEmpty fs c = true) : FsWf (eraseDir fs c) := by
  obtain ⟨hfn, hdn, hdne, hdcl, hfcl⟩ := hwf
  rw [dirIsEmpty_iff] at hemp
  obtain ⟨hempF, hempD⟩ := hemp
  refine ⟨hfn, List.Nodup.sublist (List.erase_sublist _ _) hdn, ?_, ?_, ?_⟩
  · intro p hp
    exact hdne p ((List.erase_sublist _ _).subset hp)
  · intro p hp i h1 h2
    have hpfs : p ∈ fs.dirs := (List.erase_sublist _ _).subset hp
    have htake : p.take i ∈ fs.dirs := hdcl p hpfs i h1 h2
    have hne : p.take i ≠ c := by
      intro he
      have hchild : p.take (i + 1) ∈ fs.dirs := by
        by_cases hlen : i + 1 < p.length
        · exact hdcl p hpfs (i + 1) hlen (by omega)
        · have heq : i + 1 = p.length := by omega
          rw [heq, List.take_length]
          exact hpfs
      refine hempD _ hchild ?_
      rw [← he]
      exact isChildOf_take p i (by omega)
    exact (List.mem_erase_of_ne hne).mpr htake
  · intro p hp
    obtain ⟨hne0, hcl⟩ := hfcl p hp
    refine ⟨hne0, fun i h1 h2 => ?_⟩
    have htake := hcl i h1 h2
    have hne : p.take i ≠ c := by
      intro he
      by_cases hlen : i + 1 < p.length
      · have hchild : p.take (i + 1) ∈ fs.dirs := hcl (i + 1) hlen (by omega)
        refine hempD _ hchild ?_
        rw [← he]
        exact isChildOf_take p i (by omega)
      · refine hempF p hp ?_
        have heq : p.take (i + 1) = p := by
          have hip : i + 1 = p.length := by omega
          rw [hip, List.take_length]
        have hch := isChildOf_take p i (by omega)
        rw [heq, he] at hch
        exact hch
    exact (List.mem_erase_of_ne hne).mpr htake

theorem sweepStep_files (acc : Fs) (c : FsPath) : (sweepStep acc c).files = acc.files := by
  unfold sweepStep
  split <;> rfl

theorem sweepStep_sub (acc : Fs) (c : FsPath) : (sweepStep acc c).dirs.Sublist acc.dirs := by
  unfold sweepStep
  split
  · exact List.erase_sublist _ _
  · exact List.Sublist.refl _

theorem sweepStep_wf (acc : Fs) (c : FsPath) (hwf : FsWf acc) : FsWf (sweepStep acc c) := by
  by_cases h : dirIsEmpty acc c = true
  · rw [sweepStep, if_pos h]
    exact eraseDir_wf acc c hwf h
  · rw [sweepStep, if_neg h]
    exact hwf

theorem sweep_files : ∀ (cs : List FsPath) (fs : Fs), (sweepChildren cs fs).files = fs.files := by
  intro cs
  induction cs with
  | nil => intro fs; rfl
  | cons c rest ih =>
    intro fs
    rw [sweepChildren, List.foldl_cons]
    rw [show rest.foldl sweepStep (sweepStep fs c) = sweepChildren rest (sweepStep fs c) from rfl]
    rw [ih, sweepStep_files]

theorem sweep_sub : ∀ (cs : List FsPath) (fs : Fs),
    (sweepChildren cs fs).dirs.Sublist fs.dirs := by
  intro cs
  induction cs with
  | nil => intro fs; exact List.Sublist.refl _
  | cons c rest ih =>
    intro fs
    rw [sweepChildren, List.foldl_cons]
    exact (ih (sweepStep fs c)).trans (sweepStep_sub fs c)

theorem sweep_wf : ∀ (cs : List FsPath) (fs : Fs), FsWf fs → FsWf (sweepChildren cs fs) := by
  intro cs
  induction cs with
  | nil => intro fs h; exact h
  | cons c rest ih =>
    intro fs h
    rw [sweepChildren, List.foldl_cons]
    exact ih _ (sweepStep_wf fs c h)

/-- A directory that is not in the processed list survives the sweep. -/
theorem sweep_keeps_notin : ∀ (cs : List FsPath) (fs : Fs) (q : FsPath),
    q ∉ cs → q ∈ fs.dirs → q ∈ (sweepChildren cs fs).dirs := by
  intro cs
  induction cs with
  | nil => intro fs q _ h; exact h
  | cons c rest ih =>
    intro fs q hq h
    rw [sweepChildren, List.foldl_cons]
    refine ih _ q (fun hm => hq (List.mem_cons_of_mem _ hm)) ?_
    have hne : q ≠ c := fun he => hq (he ▸ List.mem_cons_self _ _)
    unfold sweepStep
    split
    · exact (List.mem_erase_of_ne hne).mpr h
    · exact h

/-- Every removal of the sweep is of a processed directory. -/
theorem sweep_only : ∀ (cs : List FsPath) (fs : Fs) (q : FsPath),
    q ∈ fs.dirs → q ∉ (sweepChildren cs fs).dirs → q ∈ cs := by
  intro cs
  induction cs with
  | nil => intro fs q h hq; exact absurd h hq
  | cons c rest ih =>
    intro fs q h hq
    rw [sweepChildren, List.foldl_cons] at hq
    by_cases hstep : q ∈ (sweepStep fs c).dirs
    · exact List.mem_cons_of_mem _ (ih _ q hstep hq)
    · by_cases hqc : q = c
      · exact hqc ▸ List.mem_cons_self _ _
      · exfalso
        refine hstep ?_
        unfold sweepStep
        split
        · exact (List.mem_erase_of_ne hqc).mpr h
        · exact h

/-- A directory of the processed list that is empty when the sweep starts is
removed (emptiness only shrinks along the sweep). -/
theorem sweep_removes : ∀ (cs : List FsPath) (fs : Fs) (d : FsPath),
    fs.dirs.Nodup → d ∈ cs → dirIsEmpty fs d = true →
    d ∉ (sweepChildren cs fs).dirs := by
  intro cs
  induction cs with
  | nil => intro fs d _ hd _; cases hd
  | cons c rest ih =>
    intro fs d hn hd hemp
    rw [sweepChildren, List.foldl_cons]
    by_cases hdc : d = c
    · subst hdc
      have hstep : sweepStep fs d = eraseDir fs d := by rw [sweepStep, if_pos hemp]
      rw [hstep]
      have hout : d ∉ (eraseDir fs d).dirs := by
        intro hmem
        simp only [eraseDir] at hmem
        rw [hn.mem_erase_iff] at hmem
        exact hmem.1 rfl
      intro hmem
      exact hout ((sweep_sub rest _).subset hmem)
    · rcases List.mem_cons.mp hd with rfl | hd'
      · exact absurd rfl hdc
      · refine ih (sweepStep fs c) d ?_ hd' ?_
        · exact List.Nodup.sublist (sweepStep_sub fs c) hn
        · exact dirIsEmpty_mono fs _ d (sweepStep_files fs c)
            (fun q hq => (sweepStep_sub fs c).subset hq) hemp

/-- A directory with a surviving child entry is never removed by the sweep
(nor is that child, when it is not itself in the processed list). -/
theorem sweep_keeps_child : ∀ (cs : List FsPath) (fs : Fs) (c e : FsPath),
    c ∈ fs.dirs → e ∈ fs.dirs → isChildOf c e = true → e ∉ cs →
    c ∈ (sweepChildren cs fs).dirs ∧ e ∈ (sweepChildren cs fs).dirs := by
  intro cs
  induction cs with
  | nil => intro fs c e hc he _ _; exact ⟨hc, he⟩
  | cons x rest ih =>
    intro fs c e hc he hce hecs
    rw [sweepChildren, List.foldl_cons]
    have hene : e ≠ x := fun h => hecs (h ▸ List.mem_cons_self _ _)
    have he1 : e ∈ (sweepStep fs x).dirs := by
      unfold sweepStep
      split
      · exact (List.mem_erase_of_ne hene).mpr he
      · exact he
    have hc1 : c ∈ (sweepStep fs x).dirs := by
      by_cases hxc : x = c
      · subst hxc
        have hne : ¬ dirIsEmpty fs x = true := by
          rw [dirIsEmpty_iff]
          intro hh
          exact hh.2 e he hce
        rw [sweepStep, if_neg hne]
        exact hc
      · have hcne : c ≠ x := fun h => hxc h.symm
        unfold sweepStep
        split
        · exact (List.mem_erase_of_ne hcne).mpr hc
        · exact hc
    exact ih _ c e hc1 he1 hce (fun hm => hecs (List.mem_cons_of_mem _ hm))

/-- The walk's descent over the (snapshot) child list: `os.walk` tries to
recurse into each child; a child removed meanwhile yields nothing. -/
def descendFold (w : Fs → FsPath → Fs) (l : List FsPath) (base : Fs) : Fs :=
  l.foldl (fun acc x => if x ∈ acc.dirs then w acc x else acc) base

theorem walkRemoveAux_succ (fuel : Nat) (fs : Fs) (root : FsPath) :
    walkRemoveAux (fuel + 1) fs root =
      descendFold (walkRemoveAux fuel) (childDirs fs root)
        (sweepChildren (childDirs fs root) fs) := rfl

theorem descendFold_cons (w : Fs → FsPath → Fs) (x : FsPath) (l : List FsPath)
    (base : Fs) :
    descendFold w (x :: l) base =
      descendFold w l (if x ∈ base.dirs then w base x else base) := by
  unfold descendFold
  rw [List.foldl_cons]

theorem descendFold_append (w : Fs → FsPath → Fs) (l1 l2 : List FsPath) (base : Fs) :
    descendFold w (l1 ++ l2) base = descendFold w l2 (descendFold w l1 base) := by
  unfold descendFold
  rw [List.foldl_append]

theorem descendFold_files (w : Fs → FsPath → Fs)
    (hw : ∀ a c, (w a c).files = a.files) :
    ∀ (l : List FsPath) (base : Fs), (descendFold w l base).files = base.files := by
  intro l
  induction l with
  | nil => intro base; rfl
  | cons x rest ih =>
    intro base
    rw [descendFold, List.foldl_cons]
    rw [show rest.foldl (fun acc x => if x ∈ acc.dirs then w acc x else acc)
      (if x ∈ base.dirs then w base x else base) =
      descendFold w rest (if x ∈ base.dirs then w base x else base) from rfl]
    rw [ih]
    by_cases h : x ∈ base.dirs
    · rw [if_pos h, hw]
    · rw [if_neg h]

theorem descendFold_sub (w : Fs → FsPath → Fs)
    (hw : ∀ a c, (w a c).dirs.Sublist a.dirs) :
    ∀ (l : List FsPath) (base : Fs),
      (descendFold w l base).dirs.Sublist base.dirs := by
  intro l
  induction l with
  | nil => intro base; exact List.Sublist.refl _
  | cons x rest ih =>
    intro base
    rw [descendFold, List.foldl_cons]
    refine (ih (if x ∈ base.dirs then w base x else base)).trans ?_
    by_cases h : x ∈ base.dirs
    · rw [if_pos h]; exact hw base x
    · rw [if_neg h]

theorem descendFold_wf (w : Fs → FsPath → Fs)
    (hw : ∀ a c, FsWf a → FsWf (w a c)) :
    ∀ (l : List FsPath) (base : Fs), FsWf base → FsWf (descendFold w l base) := by
  intro l
  induction l with
  | nil => intro base h; exact h
  | cons x rest ih =>
    intro base h
    rw [descendFold, List.foldl_cons]
    refine ih _ ?_
    by_cases hx : x ∈ base.dirs
    · rw [if_pos hx]; exact hw base x h
    · rw [if_neg hx]; exact h

theorem descendFold_only (w : Fs → FsPath → Fs)
    (hw_only : ∀ a c q, q ∈ a.dirs → q ∉ (w a c).dirs →
      q.take c.length = c ∧ c.length < q.length) :
    ∀ (l : List FsPath) (base : Fs) (q : FsPath),
      q ∈ base.dirs → q ∉ (descendFold w l base).dirs →
      ∃ c ∈ l, q.take c.length = c ∧ c.length < q.length := by
  intro l
  induction l with
  | nil => intro base q h hq; exact absurd h hq
  | cons x rest ih =>
    intro base q h hq
    rw [descendFold, List.foldl_cons] at hq
    by_cases hstep : q ∈ (if x ∈ base.dirs then w base x else base).dirs
    · obtain ⟨c, hc, hfacts⟩ := ih _ q hstep hq
      exact ⟨c, List.mem_cons_of_mem _ hc, hfacts⟩
    · by_cases hx : x ∈ base.dirs
      · rw [if_pos hx] at hstep
        exact ⟨x, List.mem_cons_self _ _, hw_only base x q h hstep⟩
      · rw [if_neg hx] at hstep
        exact absurd h hstep

theorem walk_files : ∀ (fuel : Nat) (fs : Fs) (root : FsPath),
    (walkRemoveAux fuel fs root).files = fs.files := by
  intro fuel
  induction fuel with
  | zero => intro fs root; rfl
  | succ fuel ih =>
    intro fs root
    rw [walkRemoveAux_succ]
    rw [descendFold_files (walkRemoveAux fuel) (fun a c => ih a c)]
    exact sweep_files _ _

theorem walk_sub : ∀ (fuel : Nat) (fs : Fs) (root : FsPath),
    (walkRemoveAux fuel fs root).dirs.Sublist fs.dirs := by
  intro fuel
  induction fuel with
  | zero => intro fs root; exact List.Sublist.refl _
  | succ fuel ih =>
    intro fs root
    rw [walkRemoveAux_succ]
    exact (descendFold_sub (walkRemoveAux fuel) (fun a c => ih a c) _ _).trans
      (sweep_sub _ _)

theorem walk_wf : ∀ (fuel : Nat) (fs : Fs) (root : FsPath),
    FsWf fs → FsWf (walkRemoveAux fuel fs root) := by
  intro fuel
  induction fuel with
  | zero => intro fs root h; exact h
  | succ fuel ih =>
    intro fs root h
    rw [walkRemoveAux_succ]
    exact descendFold_wf (walkRemoveAux fuel) (fun a c => ih a c) _ _
      (sweep_wf _ _ h)

/-- The walk removes only directories strictly below the directory it was
started from. -/
theorem walk_only : ∀ (fuel : Nat) (fs : Fs) (root q : FsPath),
    q ∈ fs.dirs → q ∉ (walkRemoveAux fuel fs root).dirs →
    q.take root.length = root ∧ root.length < q.length := by
  intro fuel
  induction fuel with
  | zero => intro fs root q h hq; exact absurd h hq
  | succ fuel ih =>
    intro fs root q h hq
    rw [walkRemoveAux_succ] at hq
    by_cases hs : q ∈ (sweepChildren (childDirs fs root) fs).dirs
    · obtain ⟨c, hc, htake, hlen⟩ :=
        descendFold_only (walkRemoveAux fuel) (fun a c' q' => ih a c' q') _ _ q hs hq
      rw [mem_childDirs, isChildOf_iff] at hc
      obtain ⟨_, hclen, hctake⟩ := hc
      constructor
      · have h1 : q.take root.length = (q.take c.length).take root.length := by
          rw [List.take_take]
          congr 1
          omega
        rw [h1, htake]
        exact hctake
      · omega
    · have hqc := sweep_only (childDirs fs root) fs q h hs
      rw [mem_childDirs, isChildOf_iff] at hqc
      exact ⟨hqc.2.2, by omega⟩

/-- Keeping the target chain alive while the descent processes the other
children: every listed child has depth `root+1` and differs from `c`, the
child of `root` on the path to `d`. -/
theorem descend_keeps (fuel : Nat) :
    ∀ (l : List FsPath) (base : Fs) (root c d : FsPath),
      (∀ x ∈ l, x.length = root.length + 1 ∧ x ≠ c) →
      c.length = root.length + 1 →
      d.take (root.length + 1) = c →
      FsWf base → c ∈ base.dirs → d ∈ base.dirs →
      FsWf (descendFold (walkRemoveAux fuel) l base) ∧
      (descendFold (walkRemoveAux fuel) l base).files = base.files ∧
      (descendFold (walkRemoveAux fuel) l base).dirs.Sublist base.dirs ∧
      c ∈ (descendFold (walkRemoveAux fuel) l base).dirs ∧
      d ∈ (descendFold (walkRemoveAux fuel) l base).dirs := by
  intro l
  induction l with
  | nil =>
    intro base root c d _ _ _ hwf hc hd
    exact ⟨hwf, rfl, List.Sublist.refl _, hc, hd⟩
  | cons x rest ih =>
    intro base root c d hl hclen hdc hwf hc hd
    obtain ⟨hxlen, hxc⟩ := hl x (List.mem_cons_self _ _)
    rw [descendFold, List.foldl_cons]
    rw [show rest.foldl
      (fun acc x => if x ∈ acc.dirs then walkRemoveAux fuel acc x else acc)
      (if x ∈ base.dirs then walkRemoveAux fuel base x else base) =
      descendFold (walkRemoveAux fuel) rest
        (if x ∈ base.dirs then walkRemoveAux fuel base x else base) from rfl]
    set base1 := if x ∈ base.dirs then walkRemoveAux fuel base x else base with hbase1
    have hwf1 : FsWf base1 := by
      rw [hbase1]
      by_cases hx : x ∈ base.dirs
      · rw [if_pos hx]; exact walk_wf fuel base x hwf
      · rw [if_neg hx]; exact hwf
    have hfiles1 : base1.files = base.files := by
      rw [hbase1]
      by_cases hx : x ∈ base.dirs
      · rw [if_pos hx]; exact walk_files fuel base x
      · rw [if_neg hx]
    have hsub1 : base1.dirs.Sublist base.dirs := by
      rw [hbase1]
      by_cases hx : x ∈ base.dirs
      · rw [if_pos hx]; exact walk_sub fuel base x
      · rw [if_neg hx]
    have hc1 : c ∈ base1.dirs := by
      rw [hbase1]
      by_cases hx : x ∈ base.dirs
      · rw [if_pos hx]
        by_contra hout
        obtain ⟨_, hlt⟩ := walk_only fuel base x c hc hout
        omega
      · rw [if_neg hx]; exact hc
    have hd1 : d ∈ base1.dirs := by
      rw [hbase1]
      by_cases hx : x ∈ base.dirs
      · rw [if_pos hx]
        by_contra hout
        obtain ⟨htake, hlt⟩ := walk_only fuel base x d hd hout
        rw [hxlen] at htake
        exact hxc (hdc ▸ htake.symm ▸ rfl)
      · rw [if_neg hx]; exact hd
    obtain ⟨hwfR, hfilesR, hsubR, hcR, hdR⟩ :=
      ih base1 root c d (fun y hy => hl y (List.mem_cons_of_mem _ hy)) hclen hdc
        hwf1 hc1 hd1
    exact ⟨hwfR, hfilesR.trans hfiles1, hsubR.trans hsub1, hcR, hdR⟩

/-- The walk removes every directory below its start that is empty when it
starts (one top-down sweep: such a directory is empty when its parent is
processed, so it is removed there). -/
theorem walk_removes : ∀ (fuel : Nat) (fs : Fs) (root d : FsPath),
    FsWf fs → d ∈ fs.dirs → d.take root.length = root →
    root.length < d.length → d.length ≤ root.length + fuel →
    dirIsEmpty fs d = true →
    d ∉ (walkRemoveAux fuel fs root).dirs := by
  intro fuel
  induction fuel with
  | zero =>
    intro fs root d _ _ _ hlt hbound _
    omega
  | succ fuel ih =>
    intro fs root d hwf hd htake hlt hbound hemp
    rw [walkRemoveAux_succ]
    by_cases hdepth : d.length = root.length + 1
    · have hdc : d ∈ childDirs fs root := by
        rw [mem_childDirs, isChildOf_iff]
        exact ⟨hd, hdepth, htake⟩
      have h1 : d ∉ (sweepChildren (childDirs fs root) fs).dirs :=
        sweep_removes _ fs d hwf.2.1 hdc hemp
      intro hmem
      exact h1 ((descendFold_sub (walkRemoveAux fuel)
        (fun a c => walk_sub fuel a c) _ _).subset hmem)
    · have hlen2 : root.length + 1 < d.length := by omega
      have hclen : (d.take (root.length + 1)).length = root.length + 1 := by
        rw [List.length_take]; omega
      have hcfs : d.take (root.length + 1) ∈ fs.dirs :=
        hwf.2.2.2.1 d hd (root.length + 1) hlen2 (by omega)
      have hctake : (d.take (root.length + 1)).take root.length = root := by
        rw [List.take_take]
        have hmin : min root.length (root.length + 1) = root.length := by omega
        rw [hmin]
        exact htake
      have hcc : d.take (root.length + 1) ∈ childDirs fs root := by
        rw [mem_childDirs, isChildOf_iff]
        exact ⟨hcfs, hclen, hctake⟩
      have helen : (d.take (root.length + 2)).length = root.length + 2 := by
        rw [List.length_take]; omega
      have hefs : d.take (root.length + 2) ∈ fs.dirs := by
        by_cases h2 : root.length + 2 < d.length
        · exact hwf.2.2.2.1 d hd _ h2 (by omega)
        · have heq : root.length + 2 = d.length := by omega
          rw [heq, List.take_length]
          exact hd
      have hce : isChildOf (d.take (root.length + 1)) (d.take (root.length + 2)) = true := by
        have := isChildOf_take d (root.length + 1) (by omega)
        exact this
      have hecs : d.take (root.length + 2) ∉ childDirs fs root := by
        intro hmem
        rw [mem_childDirs, isChildOf_iff] at hmem
        omega
      obtain ⟨hc1, _⟩ := sweep_keeps_child (childDirs fs root) fs
        (d.take (root.length + 1)) (d.take (root.length + 2)) hcfs hefs hce hecs
      have hdnotchild : d ∉ childDirs fs root := by
        intro hmem
        rw [mem_childDirs, isChildOf_iff] at hmem
        omega
      have hd1 : d ∈ (sweepChildren (childDirs fs root) fs).dirs :=
        sweep_keeps_notin _ fs d hdnotchild hd
      have hwf1 : FsWf (sweepChildren (childDirs fs root) fs) :=
        sweep_wf _ fs hwf
      have hfiles1 : (sweepChildren (childDirs fs root) fs).files = fs.files :=
        sweep_files _ fs
      have hsub1 : (sweepChildren (childDirs fs root) fs).dirs.Sublist fs.dirs :=
        sweep_sub _ fs
      have hemp1 : dirIsEmpty (sweepChildren (childDirs fs root) fs) d = true :=
        dirIsEmpty_mono fs _ d hfiles1 (fun q hq => hsub1.subset hq) hemp
      obtain ⟨l1, l2, hsplit⟩ := List.append_of_mem hcc
      have hnodup : (childDirs fs root).Nodup := childDirs_nodup fs root hwf.2.1
      have hdisj : ∀ y ∈ l1, y ≠ d.take (root.length + 1) := by
        intro y hy he
        rw [hsplit] at hnodup
        have := List.disjoint_of_nodup_append hnodup
        exact this hy (he ▸ List.mem_cons_self _ _)
      have hchildfacts : ∀ y ∈ childDirs fs root, y.length = root.length + 1 := by
        intro y hy
        rw [mem_childDirs, isChildOf_iff] at hy
        exact hy.2.1
      nth_rewrite 1 [hsplit]
      rw [descendFold_append, descendFold_cons]
      obtain ⟨hwfA, hfilesA, hsubA, hcA, hdA⟩ :=
        descend_keeps fuel l1 (sweepChildren (childDirs fs root) fs) root
          (d.take (root.length + 1)) d
          (fun y hy => ⟨hchildfacts y (by rw [hsplit]; exact List.mem_append_left _ hy),
            hdisj y hy⟩)
          hclen rfl hwf1 hc1 hd1
      rw [if_pos hcA]
      have hempA : dirIsEmpty (descendFold (walkRemoveAux fuel) l1
          (sweepChildren (childDirs fs root) fs)) d = true := by
        refine dirIsEmpty_mono _ _ d ?_ ?_ hemp
        · rw [hfilesA, hfiles1]
        · intro q hq
          exact hsub1.subset (hsubA.subset hq)
      have hstep : d ∉ (walkRemoveAux fuel (descendFold (walkRemoveAux fuel) l1
          (sweepChildren (childDirs fs root) fs)) (d.take (root.length + 1))).dirs := by
        refine ih _ _ d hwfA hdA ?_ ?_ ?_ hempA
        · rw [hclen]
        · omega
        · rw [hclen]; omega
      intro hmem
      exact hstep ((descendFold_sub (walkRemoveAux fuel)
        (fun a c => walk_sub fuel a c) l2 _).subset hmem)

theorem le_fsDepth (fs : Fs) (p : FsPath) (h : p ∈ fs.dirs) : p.length ≤ fsDepth fs := by
  unfold fsDepth
  have hgen : ∀ (l : List FsPath), p ∈ l → p.length ≤ (l.map List.length).foldr max 0 := by
    intro l
    induction l with
    | nil => intro hh; cases hh
    | cons x rest ih =>
      intro hh
      rcases List.mem_cons.mp hh with rfl | h'
      · exact le_max_left _ _
      · simp only [List.map_cons, List.foldr_cons]
        exact le_trans (ih h') (le_max_right _ _)
  exact hgen fs.dirs h

theorem removeEmptyDirs_files (fs : Fs) : (removeEmptyDirs fs).files = fs.files :=
  walk_files _ _ _

theorem removeEmptyDirs_sub (fs : Fs) : (removeEmptyDirs fs).dirs.Sublist fs.dirs :=
  walk_sub _ _ _

/-- The sweep removes every directory that is empty when it starts. -/
theorem removeEmptyDirs_removes (fs : Fs) (d : FsPath) (hwf : FsWf fs)
    (hd : d ∈ fs.dirs) (hemp : dirIsEmpty fs d = true) :
    d ∉ (removeEmptyDirs fs).dirs := by
  refine walk_removes (fsDepth fs) fs [] d hwf hd rfl ?_ ?_ hemp
  · have := hwf.2.2.1 d hd
    simp only [List.length_nil]
    exact List.length_pos.mpr this
  · simpa using le_fsDepth fs d hd

/-- C2 (amended): after `process_aar` completes, the target directory
contains no top-level `classes.jar` and no Denylist path among its files;
the empty-directory sweep runs after the `classes.jar` removal and before
the Denylist removal, and removes every directory that is empty at that
intermediate point (`fs1`); a directory left empty only by the later
Denylist removals survives (see the counterexample). -/
theorem process_aar_cleanup (z : Zip) (fs fs1 fs' : Fs) (d : FsPath)
    (hwf : FsWf fs) (hz : ZipWf z)
    (hmid : removeFileIfExists (extractall z fs) ["classes.jar"] = .ok fs1)
    (hok : process_aar z fs = .ok fs') :
    ["classes.jar"] ∉ fs'.files ∧
    (∀ b ∈ blacklist_files, b ∉ fs'.files) ∧
    (d ∈ fs1.dirs → dirIsEmpty fs1 d = true → d ∉ fs'.dirs) := by
  have hextwf : FsWf (extractall z fs) := extractall_wf z fs hwf hz
  have hbl : blacklist_files.foldlM removeFileIfExists (removeEmptyDirs fs1) = .ok fs' := by
    have h := hok
    simp only [process_aar] at h
    rw [hmid] at h
    exact h
  obtain ⟨hd1, hsubf1, hnod1, hout1, _⟩ := removeFileIfExists_spec _ _ _ hmid
  have hwf1 : FsWf fs1 := by
    obtain ⟨f1, f2, f3, f4, f5⟩ := hextwf
    refine ⟨hnod1 f1, ?_, ?_, ?_, ?_⟩
    · rw [hd1]; exact f2
    · intro p hp; exact f3 p (hd1 ▸ hp)
    · intro p hp i h1 h2
      rw [hd1] at hp ⊢
      exact f4 p hp i h1 h2
    · intro p hp
      obtain ⟨hne, hcl⟩ := f5 p (hsubf1 p hp)
      refine ⟨hne, fun i h1 h2 => ?_⟩
      rw [hd1]
      exact hcl i h1 h2
  have hn2 : (removeEmptyDirs fs1).files.Nodup := by
    rw [removeEmptyDirs_files]
    exact hwf1.1
  refine ⟨?_, ?_, ?_⟩
  · have h1 : ["classes.jar"] ∉ fs1.files := hout1 (nodup_files_extractall z fs hwf.1)
    have h2 : ["classes.jar"] ∉ (removeEmptyDirs fs1).files := by
      rw [removeEmptyDirs_files]
      exact h1
    exact foldlM_remove_preserves_absent _ _ _ _ hbl h2
  · exact foldlM_remove_removes blacklist_files _ fs' hbl hn2
  · intro hd hemp
    have h1 : d ∉ (removeEmptyDirs fs1).dirs :=
      removeEmptyDirs_removes fs1 d hwf1 hd hemp
    obtain ⟨hdirs, _, _⟩ := foldlM_remove_spec blacklist_files _ fs' hbl
    rw [hdirs]
    exact h1

/-- Archive used by the C2 witness: content plus an explicitly empty
directory member and a Denylist file. -/
def c2zip : Zip :=
  ⟨[["res", "values.xml"], ["classes.jar"], ["R.txt"]], [["emptydir"]]⟩

/-- The state of the C2 witness after extraction and `classes.jar` removal. -/
def c2mid : Fs := ⟨[["res", "values.xml"], ["R.txt"]], [["emptydir"], ["res"]]⟩

/-- The final state of the C2 witness. -/
def c2out : Fs := ⟨[["res", "values.xml"]], [["res"]]⟩

theorem process_aar_cleanup_witness :
    ["classes.jar"] ∉ c2out.files ∧ (∀ b ∈ blacklist_files, b ∉ c2out.files) ∧
    ["emptydir"] ∉ c2out.dirs := by
  have h := process_aar_cleanup c2zip ⟨[], []⟩ c2mid c2out ["emptydir"]
    (by decide) (by decide) rfl rfl
  exact ⟨h.1, h.2.1, h.2.2 (by decide) (by decide)⟩

/-- Archive used by the C2 counterexample: its only content is the Denylist
entry `libs/noto-emoji-compat-java.jar`. -/
def c2xzip : Zip := ⟨[["libs", "noto-emoji-compat-java.jar"]], []⟩

/-- C2 counterexample: the `libs` directory is emptied purely by the
Denylist removal, yet it is still present after `process_aar`, because the
empty-directory sweep runs before the Denylist removal (and at that point
`libs` was not empty). -/
theorem process_aar_empty_dir_counterexample :
    process_aar c2xzip ⟨[], []⟩ = .ok ⟨[], [["libs"]]⟩ ∧
    ["libs"] ∈ (Fs.mk [] [["libs"]]).dirs ∧
    dirIsEmpty (Fs.mk [] [["libs"]]) ["libs"] = true ∧
    dirIsEmpty (Fs.mk [["libs", "noto-emoji-compat-java.jar"]] [["libs"]]) ["libs"]
      = false := by
  exact ⟨rfl, by decide, by decide, by decide⟩

/-! ### `artifact_pattern` and `transform_maven_lib`

`artifact_pattern` is
`^(.+?)-(\d+\.\d+\.\d+(?:-\w+\d+)?(?:-[\d.]+)*)\.(jar|aar)$`.
A match exists iff the name ends in `.jar`/`.aar` and the rest splits at
some `-` into a nonempty stem and a version matching
`\d+\.\d+\.\d+(?:-\w+\d+)?(?:-[\d.]+)*` (the groups are not used by the
caller beyond `group(2)`, whose value does not affect later behaviour, so
only match success is modelled).  ASCII `\d`/`\w` are modelled.
-/

/-- Consume `\d+\.\d+\.\d+` and return the remainder. -/
def matchVersionCore (cs : List Char) : Option (List Char) :=
  let s1 := cs.span Char.isDigit
  if s1.1.isEmpty then none else
  match s1.2 with
  | '.' :: r2 =>
    let s2 := r2.span Char.isDigit
    if s2.1.isEmpty then none else
    match s2.2 with
    | '.' :: r4 =>
      let s3 := r4.span Char.isDigit
      if s3.1.isEmpty then none else some s3.2
    | _ => none
  | _ => none

/-- Split a character list at every `-` (fields kept, including empties). -/
def splitDashAux : List Char → List Char → List (List Char)
  | [], acc => [acc.reverse]
  | c :: cs, acc =>
    if c = '-' then acc.reverse :: splitDashAux cs []
    else splitDashAux cs (c :: acc)

def splitDash (cs : List Char) : List (List Char) := splitDashAux cs []

/-- `\w` (ASCII). -/
def isWordChar (c : Char) : Bool := c.isAlpha || c.isDigit || c = '_'

/-- A chunk matching `\w+\d+`: word characters ending in a digit, length at
least two. -/
def isWordNumChunk (cs : List Char) : Bool :=
  decide (2 ≤ cs.length) && cs.all isWordChar &&
    (match cs.getLast? with
     | some c => c.isDigit
     | none => false)

/-- A chunk matching `[\d.]+`. -/
def isDigitDotChunk (cs : List Char) : Bool :=
  !cs.isEmpty && cs.all (fun c => c.isDigit || c = '.')

/-- The version suffix `(?:-\w+\d+)?(?:-[\d.]+)*`: dash-delimited chunks,
optionally one word-digit chunk first, then digit-dot chunks. -/
def matchVersionTail (cs : List Char) : Bool :=
  match splitDash cs with
  | [] => false
  | first :: chunks =>
    first.isEmpty &&
      (chunks.all isDigitDotChunk ||
        (match chunks with
         | c1 :: rest => isWordNumChunk c1 && rest.all isDigitDotChunk
         | [] => true))

def matchVersion (cs : List Char) : Bool :=
  match matchVersionCore cs with
  | none => false
  | some rest => matchVersionTail rest

/-- Try every dash as the separator between the lazy stem `(.+?)` and the
version; `seen` is the (reversed) stem so far. -/
def trySplits : List Char → List Char → Bool
  | _, [] => false
  | seen, c :: rest =>
    (c = '-' && !seen.isEmpty && matchVersion rest) || trySplits (c :: seen) rest

/-- Whether `artifact_pattern.match(s)` succeeds. -/
def matchesArtifactPattern (s : String) : Bool :=
  let cs := s.data
  let n := cs.length
  ((cs.drop (n - 4) == ['.', 'j', 'a', 'r']) ||
   (cs.drop (n - 4) == ['.', 'a', 'a', 'r'])) &&
  trySplits [] (cs.take (n - 4))

example : matchesArtifactPattern "core-1.2.0.aar" = true := by decide

example : matchesArtifactPattern "core-1.2.0-beta01.aar" = true := by decide

example : matchesArtifactPattern "core-1.2.3.4.jar" = false := by decide

example : matchesArtifactPattern "work-runtime-2.3.0-beta01.aar" = true := by decide

example : matchesArtifactPattern "core.aar" = false := by decide

example : matchesArtifactPattern "core-1.2.aar" = false := by decide

example : matchesArtifactPattern "core-1.2.0.zip" = false := by decide

/-- The artifact data `transform_maven_lib` consumes: the resolved key, the
directory holding the files, the repository root it came from, the payload
file name, and (for archives) the archive's member list — file contents are
not otherwise modelled, so the archive content travels with the record. -/
structure TLibInfo where
  key : String
  dir : FsPath
  repo_dir : FsPath
  file : String
  zip : Zip
deriving DecidableEq, Repr

/-- `os.path.exists`. -/
def pathExistsB (fs : Fs) (p : FsPath) : Bool := p ∈ fs.files || p ∈ fs.dirs

/-- `q` is `pre` itself or lies below it. -/
def underEq (pre p : FsPath) : Bool := p.take pre.length == pre

/-- Remove a file or directory tree (the `rm` helper). -/
def fsRemoveTree (fs : Fs) (p : FsPath) : Fs :=
  { files := fs.files.filter (fun q => !underEq p q)
    dirs := fs.dirs.filter (fun q => !underEq p q) }

/-- The `mv` helper: remove an existing destination, create the
destination's parent directories, then rename the source tree (when it
exists) to the destination. -/
def fsMove (fs : Fs) (src dst : FsPath) : Fs :=
  let fs := if pathExistsB fs dst then fsRemoveTree fs dst else fs
  let fs := { fs with dirs := (properAncestors dst).foldl addIfAbsent fs.dirs }
  if pathExistsB fs src then
    { files := fs.files.map (fun q => if underEq src q then dst ++ q.drop src.length else q)
      dirs := fs.dirs.map (fun q => if underEq src q then dst ++ q.drop src.length else q) }
  else fs

/-- `if not os.path.exists(target_dir): os.makedirs(target_dir)`. -/
def makeDirsIfAbsent (fs : Fs) (p : FsPath) : Fs :=
  if pathExistsB fs p then fs
  else { fs with dirs := addIfAbsent ((properAncestors p).foldl addIfAbsent fs.dirs) p }

/-- The subtree strictly below `p`, with paths made relative to `p`. -/
def subFs (fs : Fs) (p : FsPath) : Fs :=
  { files := fs.files.filterMap (fun q =>
      if underEq p q && decide (p.length < q.length) then some (q.drop p.length) else none)
    dirs := fs.dirs.filterMap (fun q =>
      if underEq p q && decide (p.length < q.length) then some (q.drop p.length) else none) }

/-- Replace the subtree strictly below `p` by `sub` (paths re-anchored). -/
def graftFs (fs : Fs) (p : FsPath) (sub : Fs) : Fs :=
  { files := fs.files.filter (fun q => !(underEq p q && decide (p.length < q.length))) ++
      sub.files.map (fun q => p ++ q)
    dirs := fs.dirs.filter (fun q => !(underEq p q && decide (p.length < q.length))) ++
      sub.dirs.map (fun q => p ++ q) }

/-- `process_aar(artifact_file, target_dir)` acting at `target` inside a
larger tree: its reads and writes are confined to the target subtree, so it
is the relative model grafted at `target`. -/
def processAarAt (target : FsPath) (z : Zip) (fs : Fs) : Except Unit Fs :=
  (process_aar z (subFs fs target)).map (graftFs fs target)

/-- `zip.extract(member, destDir)`: raises `KeyError` when the member is
absent; otherwise creates `destDir` (and parents) and the file. -/
def zipExtractMember (z : Zip) (member : String) (destDir : FsPath) (fs : Fs) :
    Except Unit Fs :=
  if [member] ∈ z.fileEntries then
    .ok { files := addIfAbsent fs.files (destDir ++ [member])
          dirs := (properAncestors (destDir ++ [member])).foldl addIfAbsent fs.dirs }
  else .error ()

/-- A build path string (`maven_to_make[..]['path']`) as components. -/
def pathOfMakePath (s : String) : FsPath := splitChar '/' s

/-- `transform_maven_lib`: move the artifact's directory into the working
directory (at its repository-relative location), check the filename against
`artifact_pattern` (a failed match crashes on `matcher.group(2)`), look up
the mapping entry (`KeyError` when absent), and for archive artifacts
extract-and-clean into the build path when requested, then always extract
the manifest into `manifests/<target-name>/`. -/
def transform_maven_lib (t : Table) (working_dir : FsPath) (artifact_info : TLibInfo)
    (extract_res : Bool) (fs : Fs) : Except Unit Fs :=
  let new_dir := working_dir ++ artifact_info.dir.drop artifact_info.repo_dir.length
  let fs := fsMove fs artifact_info.dir new_dir
  if matchesArtifactPattern artifact_info.file then
    let maven_lib_type := pyLastN 3 artifact_info.file
    match tableEntry t artifact_info.key with
    | none => .error ()
    | some entry =>
      if maven_lib_type = "aar" then
        (if extract_res then
          processAarAt (working_dir ++ pathOfMakePath entry.path) artifact_info.zip
            (makeDirsIfAbsent fs (working_dir ++ pathOfMakePath entry.path))
        else .ok fs).bind
          (zipExtractMember artifact_info.zip "AndroidManifest.xml"
            (working_dir ++ ["manifests", entry.name]))
      else .ok fs
  else .error ()

theorem mem_addIfAbsent_self (l : List FsPath) (p : FsPath) : p ∈ addIfAbsent l p :=
  (mem_addIfAbsent l p p).mpr (Or.inr rfl)

/-- C8: for an archive-type (`aar`) artifact, `transform_maven_lib` leaves
the archive's `AndroidManifest.xml` extracted at
`manifests/<target-name>/AndroidManifest.xml` under the working directory,
for either value of the extract-resources flag. -/
theorem transform_lib_extracts_manifest (t : Table) (working_dir : FsPath)
    (info : TLibInfo) (extract_res : Bool) (fs fs' : Fs) (entry : MakeEntry)
    (htype : pyLastN 3 info.file = "aar")
    (hentry : tableEntry t info.key = some entry)
    (hok : transform_maven_lib t working_dir info extract_res fs = .ok fs') :
    (working_dir ++ ["manifests", entry.name, "AndroidManifest.xml"]) ∈ fs'.files := by
  simp only [transform_maven_lib] at hok
  by_cases hm : matchesArtifactPattern info.file = true
  · rw [if_pos hm, hentry] at hok
    simp only [htype, if_pos] at hok
    have hok2 : ∀ g : Fs,
        zipExtractMember info.zip "AndroidManifest.xml"
          (working_dir ++ ["manifests", entry.name]) g = .ok fs' →
        (working_dir ++ ["manifests", entry.name, "AndroidManifest.xml"]) ∈ fs'.files := by
      intro g hg
      unfold zipExtractMember at hg
      by_cases hmem : ["AndroidManifest.xml"] ∈ info.zip.fileEntries
      · rw [if_pos hmem] at hg
        cases hg
        have hm2 := mem_addIfAbsent_self g.files
          ((working_dir ++ ["manifests", entry.name]) ++ ["AndroidManifest.xml"])
        simpa [List.append_assoc] using hm2
      · rw [if_neg hmem] at hg
        cases hg
    cases her : extract_res with
    | true =>
      rw [her] at hok
      simp only [if_pos] at hok
      cases hstep : processAarAt
          (working_dir ++ pathOfMakePath entry.path) info.zip
          (makeDirsIfAbsent (fsMove fs info.dir
            (working_dir ++ info.dir.drop info.repo_dir.length))
            (working_dir ++ pathOfMakePath entry.path)) with
      | error e => rw [hstep] at hok; cases hok
      | ok g => rw [hstep] at hok; exact hok2 g hok
    | false =>
      rw [her] at hok
      simp only [Bool.false_eq_true, if_neg, Except.bind] at hok
      exact hok2 _ hok
  · rw [if_neg hm] at hok
    cases hok

def c8tbl : Table := [("g:a", { name := "g_a", path := "g/a" })]

def c8info : TLibInfo :=
  { key := "g:a", dir := ["repo", "g", "a", "1.0.0"], repo_dir := ["repo"],
    file := "a-1.0.0.aar",
    zip := ⟨[["AndroidManifest.xml"], ["classes.jar"]], []⟩ }

def c8fs : Fs :=
  ⟨[["repo", "g", "a", "1.0.0", "a-1.0.0.aar"],
    ["repo", "g", "a", "1.0.0", "a-1.0.0.pom"]],
   [["repo"], ["repo", "g"], ["repo", "g", "a"], ["repo", "g", "a", "1.0.0"]]⟩

/-- Result of the C8 witness run with extraction requested. -/
def c8outT : Fs :=
  ⟨[["work", "g", "a", "1.0.0", "a-1.0.0.aar"],
    ["work", "g", "a", "1.0.0", "a-1.0.0.pom"],
    ["work", "manifests", "g_a", "AndroidManifest.xml"]],
   [["repo"], ["repo", "g"], ["repo", "g", "a"],
    ["work"], ["work", "g"], ["work", "g", "a"], ["work", "g", "a", "1.0.0"],
    ["work", "manifests"], ["work", "manifests", "g_a"]]⟩

/-- Result of the C8 witness run with extraction skipped. -/
def c8outF : Fs :=
  ⟨[["work", "g", "a", "1.0.0", "a-1.0.0.aar"],
    ["work", "g", "a", "1.0.0", "a-1.0.0.pom"],
    ["work", "manifests", "g_a", "AndroidManifest.xml"]],
   [["repo"], ["repo", "g"], ["repo", "g", "a"],
    ["work", "g", "a", "1.0.0"], ["work"], ["work", "g"], ["work", "g", "a"],
    ["work", "manifests"], ["work", "manifests", "g_a"]]⟩

theorem transform_lib_extracts_manifest_witness :
    (["work", "manifests", "g_a", "AndroidManifest.xml"] : FsPath) ∈ c8outT.files ∧
    (["work", "manifests", "g_a", "AndroidManifest.xml"] : FsPath) ∈ c8outF.files :=
  ⟨transform_lib_extracts_manifest c8tbl ["work"] c8info true c8fs c8outT
      { name := "g_a", path := "g/a" } (by decide) rfl rfl,
    transform_lib_extracts_manifest c8tbl ["work"] c8info false c8fs c8outF
      { name := "g_a", path := "g/a" } (by decide) rfl rfl⟩

/-! ### `transform_maven_repos` (lines 257-302)

The driver is modelled over two collaborator parameters: `tlib` stands for
the per-artifact `transform_maven_lib` call (the concrete model of that
call is `transform_maven_lib` above, modulo the record conversion from
`MavenLibraryInfo` to `TLibInfo`), and `pom2bpRun` stands for the
`Android.bp` emission (the `open(makefile, 'w')` plus the external
`pom2bp` subprocess of line 297, which is not part of this program).  Both
act on the filesystem and may raise (`.error`).  The driver itself is a
direct transcription of the source: detect, bail out with `False` when
nothing was detected, transform each artifact, emit the makefile, and only
then replace `local_repo = os.path.join(cwd, transformed_dir)` with the
working directory via `mv`. -/

/-- The `for info in maven_lib_info.values(): transform_maven_lib(...)`
loop (lines 279-280).  An exception propagates; the filesystem reached at
the point of failure is returned alongside. -/
def runTransforms (tlib : MavenLibraryInfo → Bool → Fs → Except Unit Fs)
    (extract_res : Bool) : List (String × MavenLibraryInfo) → Fs → Except Unit Unit × Fs
  | [], fs => (.ok (), fs)
  | p :: ps, fs =>
    match tlib p.2 extract_res fs with
    | .error e => (.error e, fs)
    | .ok fs1 => runTransforms tlib extract_res ps fs1

def transform_maven_repos (t : Table) (d : List (String × String))
    (tlib : MavenLibraryInfo → Bool → Fs → Except Unit Fs)
    (pom2bpRun : List String → Fs → Except Unit Fs)
    (cwd working_dir : FsPath) (transformed_dir : String)
    (maven_repo_dirs : List RepoData) (extract_res : Bool) (fs : Fs) :
    Except Unit Bool × Fs :=
  let local_repo := cwd ++ [transformed_dir]
  match detect_artifacts t maven_repo_dirs with
  | .error _ => (.error (), fs)
  | .ok st =>
    if st.info.isEmpty then (.ok false, fs)
    else
      match runTransforms tlib extract_res st.info fs with
      | (.error _, fs1) => (.error (), fs1)
      | (.ok _, fs1) =>
        match pom2bpRun (pom2bpArgs t d) fs1 with
        | .error _ => (.error (), fs1)
        | .ok fs2 => (.ok true, fsMove fs2 working_dir local_repo)

/-- If every successful `tlib` call leaves the subtree below `dest`
unchanged, then so does the transform loop — the state returned on failure
included, since it was reached through successful calls only. -/
theorem runTransforms_dest (tlib : MavenLibraryInfo → Bool → Fs → Except Unit Fs)
    (b : Bool) (dest : FsPath)
    (htlib : ∀ i x fs0 fs1, tlib i x fs0 = .ok fs1 → subFs fs1 dest = subFs fs0 dest) :
    ∀ (l : List (String × MavenLibraryInfo)) (fs : Fs),
      subFs (runTransforms tlib b l fs).2 dest = subFs fs dest := by
  intro l
  induction l with
  | nil => intro fs; rfl
  | cons p ps ih =>
    intro fs
    simp only [runTransforms]
    cases hstep : tlib p.2 b fs with
    | error e => rfl
    | ok fs1 => rw [ih fs1, htlib p.2 b fs fs1 hstep]

/-- C5: if discovery resolves zero artifacts, `transform_maven_repos`
returns `False` with the filesystem — destination included — untouched;
when any step raises, the destination subtree is still exactly the one
before the call (assuming per-artifact transforms leave it alone, which
`transform_maven_lib` does: it only writes under the working directory
and the repository); and a `True` return can only arise as the final
`mv(working_dir, local_repo)` applied to some fully-transformed state, so
the destination is replaced only after discovery, every per-artifact
transform, and makefile emission have all succeeded. -/
theorem transform_repos_guard (t : Table) (d : List (String × String))
    (tlib : MavenLibraryInfo → Bool → Fs → Except Unit Fs)
    (pom2bpRun : List String → Fs → Except Unit Fs)
    (cwd working_dir : FsPath) (transformed_dir : String)
    (maven_repo_dirs : List RepoData) (extract_res : Bool) (fs : Fs)
    (htlib : ∀ i b fs0 fs1, tlib i b fs0 = .ok fs1 →
      subFs fs1 (cwd ++ [transformed_dir]) = subFs fs0 (cwd ++ [transformed_dir])) :
    ((∃ st, detect_artifacts t maven_repo_dirs = .ok st ∧ st.info = []) →
      transform_maven_repos t d tlib pom2bpRun cwd working_dir transformed_dir
        maven_repo_dirs extract_res fs = (.ok false, fs)) ∧
    (∀ e fs3, transform_maven_repos t d tlib pom2bpRun cwd working_dir transformed_dir
        maven_repo_dirs extract_res fs = (.error e, fs3) →
      subFs fs3 (cwd ++ [transformed_dir]) = subFs fs (cwd ++ [transformed_dir])) ∧
    (∀ fs3, transform_maven_repos t d tlib pom2bpRun cwd working_dir transformed_dir
        maven_repo_dirs extract_res fs = (.ok true, fs3) →
      ∃ fs2, fs3 = fsMove fs2 working_dir (cwd ++ [transformed_dir])) := by
  refine ⟨?_, ?_, ?_⟩
  · rintro ⟨st, hdet, hinfo⟩
    simp [transform_maven_repos, hdet, hinfo]
  · intro e fs3 h
    cases hdet : detect_artifacts t maven_repo_dirs with
    | error u =>
      simp only [transform_maven_repos, hdet, Prod.mk.injEq] at h
      rw [← h.2]
    | ok st =>
      simp only [transform_maven_repos, hdet] at h
      by_cases hemp : st.info.isEmpty
      · rw [if_pos hemp] at h
        simp at h
      · rw [if_neg hemp] at h
        cases hrun : runTransforms tlib extract_res st.info fs with
        | mk exc fs1 =>
          rw [hrun] at h
          cases exc with
          | error u =>
            simp only [Prod.mk.injEq] at h
            rw [← h.2]
            have hd := runTransforms_dest tlib extract_res (cwd ++ [transformed_dir])
              htlib st.info fs
            rw [hrun] at hd
            exact hd
          | ok u =>
            simp only [] at h
            cases hp : pom2bpRun (pom2bpArgs t d) fs1 with
            | error v =>
              rw [hp] at h
              simp only [Prod.mk.injEq] at h
              rw [← h.2]
              have hd := runTransforms_dest tlib extract_res (cwd ++ [transformed_dir])
                htlib st.info fs
              rw [hrun] at hd
              exact hd
            | ok fs2 =>
              rw [hp] at h
              simp at h
  · intro fs3 h
    cases hdet : detect_artifacts t maven_repo_dirs with
    | error u =>
      simp only [transform_maven_repos, hdet] at h
      simp at h
    | ok st =>
      simp only [transform_maven_repos, hdet] at h
      by_cases hemp : st.info.isEmpty
      · rw [if_pos hemp] at h
        simp at h
      · rw [if_neg hemp] at h
        cases hrun : runTransforms tlib extract_res st.info fs with
        | mk exc fs1 =>
          rw [hrun] at h
          cases exc with
          | error u => simp at h
          | ok u =>
            simp only [] at h
            cases hp : pom2bpRun (pom2bpArgs t d) fs1 with
            | error v =>
              rw [hp] at h
              simp at h
            | ok fs2 =>
              rw [hp] at h
              simp only [Prod.mk.injEq] at h
              exact ⟨fs2, h.2.symm⟩

theorem transform_repos_guard_witness :
    transform_maven_repos (populateTable maven_to_make) deps_rewrite
      (fun _ _ fs0 => .ok fs0) (fun _ fs0 => .ok fs0)
      ["cwd"] ["work"] "androidx" [] true ⟨[], []⟩ =
      (.ok false, (⟨[], []⟩ : Fs)) :=
  (transform_repos_guard (populateTable maven_to_make) deps_rewrite
      (fun _ _ fs0 => .ok fs0) (fun _ fs0 => .ok fs0)
      ["cwd"] ["work"] "androidx" [] true ⟨[], []⟩
      (fun _ _ _ _ h => by cases h; rfl)).1 ⟨⟨[], []⟩, rfl, rfl⟩

end UpdatePrebuilts
